import Mathlib

set_option maxRecDepth 40000

/-!
Verification of the tab-indented outline → XMind converter
(`src/utils/convert_to_xmind.py`, class `SimpleTestCaseToXMindConverter`).

Strings are modelled as `List Char`.  The mutable `node_id_counter` instance
attribute is modelled by threading a `Nat` counter through the functions that
touch it.  The node dictionaries (`{'id': …, 'title': …, 'children': […]}`)
become the inductive type `Node`; the mutated ancestor stack of `_parse_content`
becomes a list of `Frame`s (a frame is a node whose child list is still
growing), with the head of the list as the top of the stack.
-/

namespace ConvertToXmind

/-- The whitespace characters recognised by Python `str.strip`. -/
def isPySpace (c : Char) : Bool :=
  c = ' ' || c = '\t' || c = '\n' || c = '\r' || c = '\x0b' || c = '\x0c'

/-- Python `str.lstrip()`. -/
def lstrip (l : List Char) : List Char := l.dropWhile isPySpace

/-- Python `str.rstrip()`. -/
def rstrip (l : List Char) : List Char := (l.reverse.dropWhile isPySpace).reverse

/-- Python `str.strip()`. -/
def pstrip (l : List Char) : List Char := rstrip (lstrip l)

/-- Python `str.split('\n')`: the result always has at least one piece. -/
def splitLines : List Char → List (List Char)
  | [] => [[]]
  | c :: rest =>
    match splitLines rest with
    | [] => [[c]]
    | h :: t => if c = '\n' then [] :: h :: t else (c :: h) :: t

/-- `_get_indent_level`: the number of leading horizontal tabs of a line. -/
def getIndentLevel (l : List Char) : Nat :=
  (l.takeWhile (fun c => c = '\t')).length

/-- Python `str.replace(t, rep)` for a single-character pattern `t`. -/
def replaceChar (t : Char) (rep : List Char) : List Char → List Char
  | [] => []
  | c :: rest => (if c = t then rep else [c]) ++ replaceChar t rep rest

/-- `_clean_text`: sequentially escape the five reserved XML characters,
ampersand first, exactly in the source's order. -/
def cleanText (l : List Char) : List Char :=
  replaceChar '\'' "&apos;".data
    (replaceChar '"' "&quot;".data
      (replaceChar '>' "&gt;".data
        (replaceChar '<' "&lt;".data
          (replaceChar '&' "&amp;".data l))))

/-- Decimal digit characters of `n`, most significant first; fuel-based so
that it reduces in the kernel.  Empty for `n = 0` (ids always use `n ≥ 1`). -/
def renderNatAux : Nat → Nat → List Char
  | 0, _ => []
  | _ + 1, 0 => []
  | fuel + 1, n + 1 =>
    renderNatAux fuel ((n + 1) / 10) ++ [Char.ofNat (48 + (n + 1) % 10)]

/-- The decimal rendering used by the f-string `f"topic{n}"`. -/
def renderNat (n : Nat) : List Char := renderNatAux n n

/-- Read a decimal digit string back as a number (proof tool for
injectivity of the rendering). -/
def decodeNat (l : List Char) : Nat :=
  l.foldl (fun a c => 10 * a + (c.toNat - 48)) 0

/-- The rendered id for counter value `n`: `f"topic{n}"`. -/
def mkId (n : Nat) : List Char := "topic".data ++ renderNat n

/-- `_get_next_id`: increment the counter and render the id. -/
def getNextId (counter : Nat) : List Char × Nat :=
  (mkId (counter + 1), counter + 1)

/-- A parsed node: the dict `{'id': …, 'title': …, 'children': […]}`. -/
inductive Node where
  | mk (id : List Char) (title : List Char) (children : List Node)

def Node.id : Node → List Char
  | .mk i _ _ => i

def Node.title : Node → List Char
  | .mk _ t _ => t

def Node.children : Node → List Node
  | .mk _ _ cs => cs

/-- A stack entry of `_parse_content`: a node whose `children` list is still
being appended to (the Python code mutates the dict in place). -/
structure Frame where
  fid : List Char
  ftitle : List Char
  fchildren : List Node

/-- A frame whose children list will no longer grow becomes a node. -/
def closeFrame (f : Frame) : Node := Node.mk f.fid f.ftitle f.fchildren

/-- Attach the finished frame `f` as the last child of the frame `g` below
it on the stack. -/
def mergeFrame (f g : Frame) : Frame :=
  ⟨g.fid, g.ftitle, g.fchildren ++ [closeFrame f]⟩

/-- One `node_stack.pop()`: the popped top frame is already a child of the
frame below it in the Python code; here the attachment happens at pop time. -/
def popInto : List Frame → List Frame
  | f :: g :: rest => mergeFrame f g :: rest
  | s => s

/-- The `while len(node_stack) > indent_level + 1` loop, with the stack
length as fuel (each pop shortens the stack, so this is enough fuel). -/
def popToAux : Nat → Nat → List Frame → List Frame
  | 0, _, s => s
  | fuel + 1, target, s =>
    if target < s.length then popToAux fuel target (popInto s) else s

def popTo (target : Nat) (s : List Frame) : List Frame :=
  popToAux s.length target s

/-- The `if not line.strip(): continue` test. -/
def isBlankLine (l : List Char) : Bool := (pstrip l).isEmpty

/-- One iteration of the `for line in lines` loop of `_parse_content`,
acting on the pair (counter, stack). -/
def processLine (st : Nat × List Frame) (line : List Char) : Nat × List Frame :=
  if isBlankLine line then st
  else
    let indentLevel := getIndentLevel line
    let cleaned := cleanText (pstrip line)
    let stack := popTo (indentLevel + 1) st.2
    let idc := getNextId st.1
    (idc.2, ⟨idc.1, cleaned, []⟩ :: stack)

/-- End of parsing: every frame still on the stack is already attached to
its parent in the Python code; folding the stack into its bottom frame
produces the root node. -/
def closeAll : List Frame → Node
  | [] => Node.mk [] [] []
  | f :: rest => closeFrame (rest.foldl (fun top g => mergeFrame top g) f)

/-- `_parse_content`: strip the whole content, split into lines, run the
stack algorithm; returns the root node and the final counter value. -/
def parseContent (counter : Nat) (content : List Char) : Node × Nat :=
  let lines := splitLines (pstrip content)
  let ridc := getNextId counter
  let st := lines.foldl processLine (ridc.2, [⟨ridc.1, "测试用例".data, []⟩])
  (closeAll st.2, st.1)

/-- `" " * n`. -/
def indentSpaces (n : Nat) : List Char := List.replicate n ' '

/-- Python `"\n".join`. -/
def joinLines : List (List Char) → List Char
  | [] => []
  | [l] => l
  | l :: ls => l ++ '\n' :: joinLines ls

/-- The fixed skeleton of `xml_parts` in `_build_simple_children_xml`: the
children/topics wrappers around the per-child parts, newline-joined. -/
def childrenBlock (parts : List (List Char)) (indentLevel : Nat) : List Char :=
  joinLines
    ([indentSpaces indentLevel ++ "<children>".data,
      indentSpaces (indentLevel + 2) ++ "<topics type=\"attached\">".data]
     ++ parts
     ++ [indentSpaces (indentLevel + 2) ++ "</topics>".data,
         indentSpaces indentLevel ++ "</children>".data])

mutual

/-- The parts appended to `xml_parts` for one child in the
`for child in children` loop: an opening topic line, a title line,
optionally the nested children block as a single multi-line part, and a
closing topic line. -/
def nodeParts : Node → Nat → List (List Char)
  | Node.mk i t cs, indentLevel =>
    ([indentSpaces (indentLevel + 4) ++ "<topic id=\"".data ++ i ++ "\">".data,
      indentSpaces (indentLevel + 4) ++ "  <title>".data ++ t ++ "</title>".data]
     ++ (match cs with
         | [] => []
         | c :: cs' =>
           [childrenBlock (nodeParts c (indentLevel + 6) ++ forestParts cs' (indentLevel + 6))
             (indentLevel + 6)])
     ++ [indentSpaces (indentLevel + 4) ++ "</topic>".data])

/-- Concatenation of the per-child parts over the whole loop. -/
def forestParts : List Node → Nat → List (List Char)
  | [], _ => []
  | n :: ns, indentLevel => nodeParts n indentLevel ++ forestParts ns indentLevel

end

/-- `_build_simple_children_xml`: the empty string for no children, else the
wrapped, newline-joined parts list built in the loop. -/
def buildSimpleChildrenXml (ns : List Node) (indentLevel : Nat) : List Char :=
  match ns with
  | [] => []
  | c :: cs => childrenBlock (nodeParts c indentLevel ++ forestParts cs indentLevel) indentLevel

/-- The fixed `meta.xml` stub. -/
def metaXml : List Char :=
  "<?xml version=\"1.0\" encoding=\"UTF-8\"?>\n<meta xmlns=\"urn:xmind:xmap:xmlns:meta:2.0\" version=\"2.0\">\n</meta>".data

/-- The fixed `META-INF/manifest.xml` stub. -/
def manifestXml : List Char :=
  "<?xml version=\"1.0\" encoding=\"UTF-8\"?>\n<manifest xmlns=\"urn:xmind:xmap:xmlns:manifest:1.0\">\n  <file-entry full-path=\"content.xml\" media-type=\"text/xml\"/>\n  <file-entry full-path=\"meta.xml\" media-type=\"text/xml\"/>\n</manifest>".data

/-- The `content.xml` f-string of `_create_simple_xmind_file`. -/
def contentXml (root : Node) : List Char :=
  "<?xml version=\"1.0\" encoding=\"UTF-8\"?>\n<xmap-content xmlns=\"urn:xmind:xmap:xmlns:content:2.0\" version=\"2.0\">\n  <sheet id=\"sheet1\">\n    <topic id=\"".data
  ++ root.id
  ++ "\" structure-class=\"org.xmind.ui.logic.right\">\n      <title>".data
  ++ root.title
  ++ "</title>\n".data
  ++ buildSimpleChildrenXml root.children 6
  ++ "\n    </topic>\n  </sheet>\n</xmap-content>".data

/-- The three archive entries, in the order they are written. -/
def xmindEntries (root : Node) : List (List Char × List Char) :=
  [("content.xml".data, contentXml root),
   ("meta.xml".data, metaXml),
   ("META-INF/manifest.xml".data, manifestXml)]

/-- `_create_simple_xmind_file`: the output path names the file on disk but
does not influence any entry's bytes. -/
def createSimpleXmindFile (root : Node) (_outputFile : List Char) :
    List (List Char × List Char) :=
  xmindEntries root

/-- One command-line run: a freshly constructed converter (counter 0),
parse, emit; the default output path is used. -/
def convertRun (content : List Char) : List (List Char × List Char) :=
  createSimpleXmindFile (parseContent 0 content).1 []

/-! ### Definitions modelled from the spec, for the refinement claims -/

/-- Modelled from the spec (§4.1 step 2): each reserved markup character is
replaced by its named entity in one pass, so entity text introduced by a
substitution is never escaped again. -/
def specEscapeChar (c : Char) : List Char :=
  if c = '&' then "&amp;".data
  else if c = '<' then "&lt;".data
  else if c = '>' then "&gt;".data
  else if c = '"' then "&quot;".data
  else if c = '\'' then "&apos;".data
  else [c]

/-- One-pass escaping of a whole string with `specEscapeChar`. -/
def specEscape : List Char → List Char
  | [] => []
  | c :: rest => specEscapeChar c ++ specEscape rest

/-- Modelled from the spec (§4.1): the stack algorithm applied to the lines
of the input text itself, with no whole-content strip.  The per-line rule
is the one the spec states, which is also the code's `processLine`. -/
def specParse (counter : Nat) (content : List Char) : Node × Nat :=
  let lines := splitLines content
  let ridc := getNextId counter
  let st := lines.foldl processLine (ridc.2, [⟨ridc.1, "测试用例".data, []⟩])
  (closeAll st.2, st.1)

/-- The children/topics wrapper of the spec's recursive rule, as lines. -/
def specWrap (lines : List (List Char)) (indentLevel : Nat) : List (List Char) :=
  [indentSpaces indentLevel ++ "<children>".data,
   indentSpaces (indentLevel + 2) ++ "<topics type=\"attached\">".data]
  ++ lines
  ++ [indentSpaces (indentLevel + 2) ++ "</topics>".data,
      indentSpaces indentLevel ++ "</children>".data]

mutual

/-- Modelled from the spec's recursive XML construction rule (§4.2): one
`topic` element per node, holding its title and, when the node has
children, exactly one children wrapper holding exactly one attached-topics
wrapper holding the children's topics in order; given as output lines. -/
def specNodeLines : Node → Nat → List (List Char)
  | Node.mk i t cs, indentLevel =>
    ([indentSpaces (indentLevel + 4) ++ "<topic id=\"".data ++ i ++ "\">".data,
      indentSpaces (indentLevel + 4) ++ "  <title>".data ++ t ++ "</title>".data]
     ++ (match cs with
         | [] => []
         | c :: cs' =>
           specWrap (specNodeLines c (indentLevel + 6) ++ specForestLines cs' (indentLevel + 6))
             (indentLevel + 6))
     ++ [indentSpaces (indentLevel + 4) ++ "</topic>".data])

/-- The lines of a sequence of sibling topics, in order. -/
def specForestLines : List Node → Nat → List (List Char)
  | [], _ => []
  | n :: ns, indentLevel => specNodeLines n indentLevel ++ specForestLines ns indentLevel

end

/-- Modelled from the spec (§4.2): the children block of a node, as lines —
no lines at all for no children, else the wrapped children topics. -/
def specChildrenLines (ns : List Node) (indentLevel : Nat) : List (List Char) :=
  match ns with
  | [] => []
  | c :: cs => specWrap (specNodeLines c indentLevel ++ specForestLines cs indentLevel) indentLevel

/-- The lines of the whole `content.xml` document (§4.2): fixed header, the
root topic line, the root title line, the root's children block (an empty
line when the root has no children, from the f-string's lone placeholder
line), and the fixed footer. -/
def specContentLines (root : Node) : List (List Char) :=
  ["<?xml version=\"1.0\" encoding=\"UTF-8\"?>".data,
   "<xmap-content xmlns=\"urn:xmind:xmap:xmlns:content:2.0\" version=\"2.0\">".data,
   "  <sheet id=\"sheet1\">".data,
   "    <topic id=\"".data ++ root.id ++ "\" structure-class=\"org.xmind.ui.logic.right\">".data,
   "      <title>".data ++ root.title ++ "</title>".data]
  ++ (if root.children.isEmpty then [[]] else specChildrenLines root.children 6)
  ++ ["    </topic>".data, "  </sheet>".data, "</xmap-content>".data]

/-! ### Tree measures and traversals -/

mutual

/-- Number of nodes of a tree. -/
def nodeSize : Node → Nat
  | .mk _ _ cs => 1 + forestSize cs

/-- Number of nodes of a forest. -/
def forestSize : List Node → Nat
  | [] => 0
  | n :: ns => nodeSize n + forestSize ns

end

mutual

/-- Number of nodes with nonempty children inside a tree (itself included). -/
def nodeWrappers : Node → Nat
  | .mk _ _ [] => 0
  | .mk _ _ (c :: cs) => 1 + nodeWrappers c + forestWrappers cs

/-- Number of nodes with nonempty children inside a forest. -/
def forestWrappers : List Node → Nat
  | [] => 0
  | n :: ns => nodeWrappers n + forestWrappers ns

end

mutual

/-- The ids of a tree in pre-order (node before its children). -/
def preorderIds : Node → List (List Char)
  | .mk i _ cs => i :: forestIds cs

def forestIds : List Node → List (List Char)
  | [] => []
  | n :: ns => preorderIds n ++ forestIds ns

end

mutual

/-- The titles of a tree in pre-order. -/
def preorderTitles : Node → List (List Char)
  | .mk _ t cs => t :: forestTitles cs

def forestTitles : List Node → List (List Char)
  | [] => []
  | n :: ns => preorderTitles n ++ forestTitles ns

end

/-- The ids of the eventual tree of a parse stack, in pre-order: the stack
grows at its head, so the bottom (root) frame contributes first. -/
def stackIds : List Frame → List (List Char)
  | [] => []
  | f :: rest => stackIds rest ++ f.fid :: forestIds f.fchildren

/-- The titles of the eventual tree of a parse stack, in pre-order. -/
def stackTitles : List Frame → List (List Char)
  | [] => []
  | f :: rest => stackTitles rest ++ f.ftitle :: forestTitles f.fchildren

/-! ### Line classification, for counting elements of the emitted XML -/

/-- A line with its cosmetic indentation removed. -/
def lineTag (l : List Char) : List Char := l.dropWhile (fun c => c = ' ')

/-- Recognises the opening line of a `topic` element (both the root's line
and a child's line start this way after their indentation). -/
def isTopicOpenLine (l : List Char) : Bool :=
  "<topic id=\"".data.isPrefixOf (lineTag l)

/-- Recognises the opening line of an attached-`topics` wrapper. -/
def isTopicsOpenLine (l : List Char) : Bool :=
  "<topics type=\"attached\">".data.isPrefixOf (lineTag l)

/-- Recognises the opening line of a `children` wrapper. -/
def isChildrenOpenLine (l : List Char) : Bool :=
  "<children>".data.isPrefixOf (lineTag l)

/-- The non-blank lines of an input text, in order. -/
def nonBlankLines (content : List Char) : List (List Char) :=
  (splitLines content).filter (fun l => !isBlankLine l)

/-- The number of non-blank lines of an input text. -/
def countNonBlank (content : List Char) : Nat := (nonBlankLines content).length

/-- Rewrite the last line of a list of lines (identity on the empty list). -/
def modifyLastLine (g : List Char → List Char) : List (List Char) → List (List Char)
  | [] => []
  | [l] => [g l]
  | l :: ls => l :: modifyLastLine g ls

/-! ### Basic lemmas about lines -/

theorem cons_headI_tail {α} [Inhabited α] {l : List α} (h : l ≠ []) :
    l.headI :: l.tail = l := by
  cases l with
  | nil => exact absurd rfl h
  | cons a t => rfl

theorem headI_mem {α} [Inhabited α] {l : List α} (h : l ≠ []) : l.headI ∈ l := by
  cases l with
  | nil => exact absurd rfl h
  | cons a t => exact List.mem_cons_self a t

theorem headI_append {α} [Inhabited α] {A : List α} (B : List α) (h : A ≠ []) :
    (A ++ B).headI = A.headI := by
  cases A with
  | nil => exact absurd rfl h
  | cons a t => rfl

theorem tail_append_of_ne_nil {α} {A : List α} (B : List α) (h : A ≠ []) :
    (A ++ B).tail = A.tail ++ B := by
  cases A with
  | nil => exact absurd rfl h
  | cons a t => rfl

theorem splitLines_ne_nil (x : List Char) : splitLines x ≠ [] := by
  induction x with
  | nil => simp [splitLines]
  | cons c rest ih =>
    simp only [splitLines]
    cases hsl : splitLines rest with
    | nil => exact absurd hsl ih
    | cons a t => by_cases hc : c = '\n' <;> simp [hc]

theorem splitLines_cons (c : Char) (x : List Char) :
    splitLines (c :: x)
      = if c = '\n' then [] :: splitLines x
        else (c :: (splitLines x).headI) :: (splitLines x).tail := by
  simp only [splitLines]
  cases hsl : splitLines x with
  | nil => exact absurd hsl (splitLines_ne_nil x)
  | cons a t => by_cases hc : c = '\n' <;> simp [hc]

theorem splitLines_cons_newline (x : List Char) :
    splitLines ('\n' :: x) = [] :: splitLines x := by
  simp [splitLines_cons]

theorem splitLines_cons_other {c : Char} (hc : ¬ c = '\n') (x : List Char) :
    splitLines (c :: x) = (c :: (splitLines x).headI) :: (splitLines x).tail := by
  simp [splitLines_cons, hc]

theorem splitLines_append_no_newline {a : List Char} (ha : '\n' ∉ a) (rest : List Char) :
    splitLines (a ++ rest) = (a ++ (splitLines rest).headI) :: (splitLines rest).tail := by
  induction a with
  | nil =>
    simpa using (cons_headI_tail (splitLines_ne_nil rest)).symm
  | cons c a' ih =>
    have hc : ¬ c = '\n' := fun h => ha (h ▸ List.mem_cons_self c a')
    have ha' : '\n' ∉ a' := fun h => ha (List.mem_cons_of_mem _ h)
    rw [List.cons_append, splitLines_cons_other hc, ih ha']
    simp

theorem not_newline_mem_splitLines {x l : List Char} (hl : l ∈ splitLines x) : '\n' ∉ l := by
  induction x generalizing l with
  | nil =>
    simp [splitLines] at hl
    subst hl; simp
  | cons c rest ih =>
    rw [splitLines_cons] at hl
    by_cases hc : c = '\n'
    · rw [if_pos hc] at hl
      rcases List.mem_cons.mp hl with h | h
      · subst h; simp
      · exact ih h
    · rw [if_neg hc] at hl
      rcases List.mem_cons.mp hl with h | h
      · subst h
        intro hmem
        rcases List.mem_cons.mp hmem with h2 | h2
        · exact hc h2.symm
        · exact ih (headI_mem (splitLines_ne_nil rest)) h2
      · exact ih (List.mem_of_mem_tail h)

theorem joinLines_cons (l : List Char) {ls : List (List Char)} (h : ls ≠ []) :
    joinLines (l :: ls) = l ++ '\n' :: joinLines ls := by
  cases ls with
  | nil => exact absurd rfl h
  | cons a t => rfl

theorem joinLines_append {xs ys : List (List Char)} (hx : xs ≠ []) (hy : ys ≠ []) :
    joinLines (xs ++ ys) = joinLines xs ++ '\n' :: joinLines ys := by
  induction xs with
  | nil => exact absurd rfl hx
  | cons a t ih =>
    cases t with
    | nil => simp [joinLines_cons _ hy, joinLines]
    | cons b u =>
      rw [List.cons_append, joinLines_cons _ (by simp), joinLines_cons _ (by simp),
        ih (by simp)]
      simp

theorem splitLines_joinLines {ls : List (List Char)} (h : ls ≠ [])
    (hn : ∀ l ∈ ls, '\n' ∉ l) : splitLines (joinLines ls) = ls := by
  induction ls with
  | nil => exact absurd rfl h
  | cons a t ih =>
    cases t with
    | nil =>
      have := splitLines_append_no_newline (hn a (List.mem_cons_self a [])) []
      simpa [joinLines, splitLines] using this
    | cons b u =>
      rw [joinLines_cons _ (by simp),
        splitLines_append_no_newline (hn a (List.mem_cons_self a _)),
        splitLines_cons_newline]
      have ht : splitLines (joinLines (b :: u)) = b :: u :=
        ih (by simp) (fun l hl => hn l (List.mem_cons_of_mem _ hl))
      simp [ht]

theorem splitLines_snoc_newline (x : List Char) :
    splitLines (x ++ ['\n']) = splitLines x ++ [[]] := by
  induction x with
  | nil => simp [splitLines]
  | cons c x' ih =>
    rw [List.cons_append, splitLines_cons, splitLines_cons]
    by_cases hc : c = '\n'
    · simp [hc, ih]
    · have hne := splitLines_ne_nil x'
      simp [hc, ih, headI_append _ hne, tail_append_of_ne_nil _ hne]

theorem modifyLastLine_cons (g : List Char → List Char) (l : List Char)
    {ls : List (List Char)} (h : ls ≠ []) :
    modifyLastLine g (l :: ls) = l :: modifyLastLine g ls := by
  cases ls with
  | nil => exact absurd rfl h
  | cons a t => rfl

theorem splitLines_snoc_other {c : Char} (hc : ¬ c = '\n') (x : List Char) :
    splitLines (x ++ [c]) = modifyLastLine (fun l => l ++ [c]) (splitLines x) := by
  induction x with
  | nil => simp [splitLines, hc, modifyLastLine]
  | cons a x' ih =>
    rw [List.cons_append, splitLines_cons, splitLines_cons]
    by_cases ha : a = '\n'
    · rw [if_pos ha, if_pos ha, ih,
        modifyLastLine_cons _ _ (splitLines_ne_nil x')]
    · rw [if_neg ha, if_neg ha, ih]
      cases hsl : splitLines x' with
      | nil => exact absurd hsl (splitLines_ne_nil x')
      | cons s ss =>
        cases ss with
        | nil => simp [modifyLastLine]
        | cons s2 ss' =>
          simp only [List.headI_cons, List.tail_cons]
          rw [modifyLastLine_cons (fun l => l ++ [c]) s (show s2 :: ss' ≠ [] by simp),
            modifyLastLine_cons (fun l => l ++ [c]) (a :: s) (show s2 :: ss' ≠ [] by simp)]
          simp

/-! ### Lemmas about stripping and blankness -/

theorem lstrip_cons_space {c : Char} (hc : isPySpace c = true) (x : List Char) :
    lstrip (c :: x) = lstrip x := by
  simp [lstrip, List.dropWhile_cons, hc]

theorem pstrip_cons_space {c : Char} (hc : isPySpace c = true) (x : List Char) :
    pstrip (c :: x) = pstrip x := by
  simp [pstrip, lstrip_cons_space hc]

theorem rstrip_snoc_space {c : Char} (hc : isPySpace c = true) (x : List Char) :
    rstrip (x ++ [c]) = rstrip x := by
  simp [rstrip, List.dropWhile_cons, hc]

theorem rstrip_snoc_keep {c : Char} (hc : isPySpace c = false) (x : List Char) :
    rstrip (x ++ [c]) = x ++ [c] := by
  simp [rstrip, List.dropWhile_cons, hc]

theorem lstrip_append (x y : List Char) :
    lstrip (x ++ y) = if (lstrip x).isEmpty then lstrip y else lstrip x ++ y := by
  simp [lstrip, List.dropWhile_append]

theorem pstrip_snoc_space {c : Char} (hc : isPySpace c = true) (x : List Char) :
    pstrip (x ++ [c]) = pstrip x := by
  unfold pstrip
  rw [lstrip_append]
  by_cases h : (lstrip x).isEmpty
  · rw [if_pos h]
    have h1 : lstrip x = [] := by simpa [List.isEmpty_iff] using h
    have h2 : lstrip [c] = [] := by simp [lstrip, List.dropWhile_cons, hc, List.dropWhile]
    simp [h1, h2]
  · rw [if_neg h]
    exact rstrip_snoc_space hc _

theorem pstrip_of_all_space {l : List Char} (h : l.all isPySpace = true) : pstrip l = [] := by
  have h1 : lstrip l = [] := by
    rw [lstrip, List.dropWhile_eq_nil_iff]
    intro x hx
    exact List.all_eq_true.mp h x hx
  simp [pstrip, h1, rstrip]

theorem isBlankLine_of_all_space {l : List Char} (h : l.all isPySpace = true) :
    isBlankLine l = true := by
  simp [isBlankLine, pstrip_of_all_space h]

theorem exists_nonspace_of_not_blank {l : List Char} (h : isBlankLine l = false) :
    ∃ a ∈ l, isPySpace a = false := by
  by_contra hc
  push_neg at hc
  have hall : l.all isPySpace = true := by
    rw [List.all_eq_true]
    intro x hx
    simpa using hc x hx
  have hb := isBlankLine_of_all_space hall
  rw [h] at hb
  exact Bool.false_ne_true hb

theorem mem_of_mem_pstrip {c : Char} {l : List Char} (h : c ∈ pstrip l) : c ∈ l := by
  have h1 : c ∈ lstrip l := by
    simp only [pstrip, rstrip] at h
    have h2 : c ∈ (lstrip l).reverse.dropWhile isPySpace := by simpa using h
    have h3 := (List.dropWhile_sublist isPySpace).mem h2
    simpa using h3
  exact (List.dropWhile_sublist isPySpace).mem h1

theorem isBlankLine_cons_space {c : Char} (hc : isPySpace c = true) (x : List Char) :
    isBlankLine (c :: x) = isBlankLine x := by
  simp [isBlankLine, pstrip_cons_space hc]

theorem isBlankLine_snoc_space {c : Char} (hc : isPySpace c = true) (x : List Char) :
    isBlankLine (x ++ [c]) = isBlankLine x := by
  simp [isBlankLine, pstrip_snoc_space hc]

theorem takeWhile_append_of_exists {p : Char → Bool} {l : List Char}
    (h : ∃ a ∈ l, p a = false) (r : List Char) :
    (l ++ r).takeWhile p = l.takeWhile p := by
  induction l with
  | nil => simp at h
  | cons c t ih =>
    by_cases hc : p c
    · rcases h with ⟨a, ha, hpa⟩
      rcases List.mem_cons.mp ha with h1 | h1
      · subst h1
        rw [hpa] at hc
        exact absurd hc (by simp)
      · simp [List.takeWhile_cons, hc, ih ⟨a, h1, hpa⟩]
    · simp [List.takeWhile_cons, hc]

theorem getIndentLevel_append {l : List Char} (h : isBlankLine l = false) (r : List Char) :
    getIndentLevel (l ++ r) = getIndentLevel l := by
  obtain ⟨a, ha, hpa⟩ := exists_nonspace_of_not_blank h
  have htab : (fun c : Char => decide (c = '\t')) a = false := by
    by_cases h2 : a = '\t'
    · subst h2; simp [isPySpace] at hpa
    · simp [h2]
  unfold getIndentLevel
  rw [takeWhile_append_of_exists ⟨a, ha, htab⟩]

/-! ### Lemmas about id rendering -/

theorem renderNatAux_zero (f : Nat) : renderNatAux f 0 = [] := by
  cases f <;> rfl

theorem renderNatAux_irrel (n : Nat) : ∀ f1 f2, n ≤ f1 → n ≤ f2 →
    renderNatAux f1 n = renderNatAux f2 n := by
  induction n using Nat.strong_induction_on with
  | _ n ih =>
    intro f1 f2 h1 h2
    cases n with
    | zero => rw [renderNatAux_zero, renderNatAux_zero]
    | succ m =>
      cases f1 with
      | zero => omega
      | succ g1 =>
        cases f2 with
        | zero => omega
        | succ g2 =>
          have hd : (m + 1) / 10 < m + 1 := Nat.div_lt_self (Nat.succ_pos m) (by norm_num)
          simp only [renderNatAux]
          rw [ih ((m + 1) / 10) hd g1 g2 (by omega) (by omega)]

theorem renderNat_succ (n : Nat) :
    renderNat (n + 1) = renderNat ((n + 1) / 10) ++ [Char.ofNat (48 + (n + 1) % 10)] := by
  have hd : (n + 1) / 10 ≤ n := by
    have := Nat.div_lt_self (Nat.succ_pos n) (show 1 < 10 by norm_num)
    omega
  unfold renderNat
  simp only [renderNatAux]
  rw [renderNatAux_irrel ((n + 1) / 10) n ((n + 1) / 10) hd le_rfl]

theorem digit_toNat {d : Nat} (hd : d < 10) : (Char.ofNat (48 + d)).toNat = 48 + d := by
  interval_cases d <;> rfl

theorem decodeNat_snoc (l : List Char) (c : Char) :
    decodeNat (l ++ [c]) = 10 * decodeNat l + (c.toNat - 48) := by
  simp [decodeNat, List.foldl_append]

theorem decodeNat_renderNat (n : Nat) : decodeNat (renderNat n) = n := by
  induction n using Nat.strong_induction_on with
  | _ n ih =>
    cases n with
    | zero => rfl
    | succ m =>
      rw [renderNat_succ, decodeNat_snoc]
      have hd : (m + 1) / 10 < m + 1 := Nat.div_lt_self (Nat.succ_pos m) (by norm_num)
      rw [ih _ hd]
      have h10 : (m + 1) % 10 < 10 := Nat.mod_lt _ (by norm_num)
      rw [digit_toNat h10]
      omega

theorem renderNat_inj : Function.Injective renderNat := by
  intro a b h
  have h2 := congrArg decodeNat h
  rwa [decodeNat_renderNat, decodeNat_renderNat] at h2

theorem mkId_inj : Function.Injective mkId := by
  intro a b h
  unfold mkId at h
  exact renderNat_inj (List.append_cancel_left h)

theorem renderNatAux_digits (f : Nat) : ∀ (n : Nat) (c : Char), c ∈ renderNatAux f n →
    48 ≤ c.toNat ∧ c.toNat ≤ 57 := by
  induction f with
  | zero =>
    intro n c h
    simp [renderNatAux] at h
  | succ g ih =>
    intro n c h
    cases n with
    | zero => simp [renderNatAux] at h
    | succ m =>
      simp only [renderNatAux] at h
      rcases List.mem_append.mp h with h1 | h1
      · exact ih _ _ h1
      · have hc : c = Char.ofNat (48 + (m + 1) % 10) := by simpa using h1
        subst hc
        have h10 : (m + 1) % 10 < 10 := Nat.mod_lt _ (by norm_num)
        rw [digit_toNat h10]
        omega

theorem renderNat_digits {n : Nat} {c : Char} (h : c ∈ renderNat n) :
    48 ≤ c.toNat ∧ c.toNat ≤ 57 := renderNatAux_digits n n c h

theorem newline_not_mem_mkId (n : Nat) : '\n' ∉ mkId n := by
  intro h
  unfold mkId at h
  rcases List.mem_append.mp h with h1 | h1
  · simp at h1
  · have h2 := (renderNat_digits h1).1
    have h3 : ('\n').toNat = 10 := rfl
    omega

theorem renderNat_ne_nil_of_pos {n : Nat} (h : 0 < n) : renderNat n ≠ [] := by
  cases n with
  | zero => omega
  | succ m =>
    rw [renderNat_succ]
    simp

theorem head?_append_of_ne_nil {α} {A : List α} (B : List α) (h : A ≠ []) :
    (A ++ B).head? = A.head? := by
  cases A with
  | nil => exact absurd rfl h
  | cons a t => rfl

theorem renderNat_head_ne_zero (n : Nat) (h : 0 < n) : (renderNat n).head? ≠ some '0' := by
  induction n using Nat.strong_induction_on with
  | _ n ih =>
    cases n with
    | zero => omega
    | succ m =>
      rw [renderNat_succ]
      by_cases hq : (m + 1) / 10 = 0
      · rw [hq]
        have hnil : renderNat 0 = [] := rfl
        rw [hnil, List.nil_append]
        have hm : m + 1 < 10 := by omega
        have hmod : (m + 1) % 10 = m + 1 := Nat.mod_eq_of_lt hm
        intro hcon
        have hd : Char.ofNat (48 + (m + 1) % 10) = '0' := by simpa using hcon
        have := congrArg Char.toNat hd
        rw [digit_toNat (by omega)] at this
        have h0 : ('0').toNat = 48 := rfl
        omega
      · have hpos : 0 < (m + 1) / 10 := Nat.pos_of_ne_zero hq
        have hlt : (m + 1) / 10 < m + 1 := Nat.div_lt_self (Nat.succ_pos m) (by norm_num)
        rw [head?_append_of_ne_nil _ (renderNat_ne_nil_of_pos hpos)]
        exact ih _ hlt hpos

/-! ### Lemmas about text escaping -/

theorem replaceChar_append (t : Char) (rep a b : List Char) :
    replaceChar t rep (a ++ b) = replaceChar t rep a ++ replaceChar t rep b := by
  induction a with
  | nil => rfl
  | cons c a' ih => simp [replaceChar, ih]

theorem cleanText_append (a b : List Char) :
    cleanText (a ++ b) = cleanText a ++ cleanText b := by
  simp [cleanText, replaceChar_append]

theorem cleanText_singleton (c : Char) : cleanText [c] = specEscapeChar c := by
  by_cases h1 : c = '&'
  · subst h1; decide
  by_cases h2 : c = '<'
  · subst h2; decide
  by_cases h3 : c = '>'
  · subst h3; decide
  by_cases h4 : c = '"'
  · subst h4; decide
  by_cases h5 : c = '\''
  · subst h5; decide
  simp [cleanText, replaceChar, specEscapeChar, h1, h2, h3, h4, h5]

theorem cleanText_eq_specEscape (l : List Char) : cleanText l = specEscape l := by
  induction l with
  | nil => rfl
  | cons c rest ih =>
    have h1 : cleanText (c :: rest) = cleanText [c] ++ cleanText rest := by
      simpa using cleanText_append [c] rest
    rw [h1, ih, cleanText_singleton]
    rfl

theorem specEscapeChar_no_newline {c : Char} (hc : ¬ c = '\n') : '\n' ∉ specEscapeChar c := by
  unfold specEscapeChar
  split_ifs
  · decide
  · decide
  · decide
  · decide
  · decide
  · simp
    exact fun h => hc h.symm

theorem cleanText_no_newline {l : List Char} (hl : '\n' ∉ l) : '\n' ∉ cleanText l := by
  rw [cleanText_eq_specEscape]
  induction l with
  | nil => simp [specEscape]
  | cons c rest ih =>
    simp only [specEscape]
    intro h
    rcases List.mem_append.mp h with h1 | h1
    · exact specEscapeChar_no_newline
        (fun hq => hl (hq ▸ List.mem_cons_self c rest)) h1
    · exact ih (fun h2 => hl (List.mem_cons_of_mem _ h2)) h1

/-! ### Lemmas about the parse stack -/

/-- The id and title of the bottom (root) frame of a stack. -/
def lastFrameKey (s : List Frame) : Option (List Char × List Char) :=
  s.getLast?.map (fun f => (f.fid, f.ftitle))

theorem forestIds_append (a b : List Node) :
    forestIds (a ++ b) = forestIds a ++ forestIds b := by
  induction a with
  | nil => rfl
  | cons n ns ih => simp [forestIds, ih]

theorem forestTitles_append (a b : List Node) :
    forestTitles (a ++ b) = forestTitles a ++ forestTitles b := by
  induction a with
  | nil => rfl
  | cons n ns ih => simp [forestTitles, ih]

theorem stackIds_merge (f g : Frame) (rest : List Frame) :
    stackIds (mergeFrame f g :: rest) = stackIds (f :: g :: rest) := by
  simp [stackIds, mergeFrame, closeFrame, forestIds_append, preorderIds, forestIds]

theorem stackTitles_merge (f g : Frame) (rest : List Frame) :
    stackTitles (mergeFrame f g :: rest) = stackTitles (f :: g :: rest) := by
  simp [stackTitles, mergeFrame, closeFrame, forestTitles_append, preorderTitles, forestTitles]

theorem getLast?_cons_of_ne_nil {α} (a : α) {l : List α} (h : l ≠ []) :
    (a :: l).getLast? = l.getLast? := by
  cases l with
  | nil => exact absurd rfl h
  | cons b t => exact List.getLast?_cons_cons

theorem lastFrameKey_merge (f g : Frame) (rest : List Frame) :
    lastFrameKey (mergeFrame f g :: rest) = lastFrameKey (f :: g :: rest) := by
  cases rest with
  | nil => rfl
  | cons r rs =>
    unfold lastFrameKey
    simp [List.getLast?_cons_cons]

theorem popInto_stackIds (s : List Frame) : stackIds (popInto s) = stackIds s := by
  cases s with
  | nil => rfl
  | cons f t =>
    cases t with
    | nil => rfl
    | cons g rest => exact stackIds_merge f g rest

theorem popInto_stackTitles (s : List Frame) : stackTitles (popInto s) = stackTitles s := by
  cases s with
  | nil => rfl
  | cons f t =>
    cases t with
    | nil => rfl
    | cons g rest => exact stackTitles_merge f g rest

theorem popInto_lastFrameKey (s : List Frame) : lastFrameKey (popInto s) = lastFrameKey s := by
  cases s with
  | nil => rfl
  | cons f t =>
    cases t with
    | nil => rfl
    | cons g rest => exact lastFrameKey_merge f g rest

theorem popInto_ne_nil {s : List Frame} (h : s ≠ []) : popInto s ≠ [] := by
  cases s with
  | nil => exact absurd rfl h
  | cons f t =>
    cases t with
    | nil => simp [popInto]
    | cons g rest => simp [popInto]

theorem popToAux_stackIds (fuel target : Nat) (s : List Frame) :
    stackIds (popToAux fuel target s) = stackIds s := by
  induction fuel generalizing s with
  | zero => rfl
  | succ g ih =>
    simp only [popToAux]
    split
    · rw [ih, popInto_stackIds]
    · rfl

theorem popToAux_stackTitles (fuel target : Nat) (s : List Frame) :
    stackTitles (popToAux fuel target s) = stackTitles s := by
  induction fuel generalizing s with
  | zero => rfl
  | succ g ih =>
    simp only [popToAux]
    split
    · rw [ih, popInto_stackTitles]
    · rfl

theorem popToAux_lastFrameKey (fuel target : Nat) (s : List Frame) :
    lastFrameKey (popToAux fuel target s) = lastFrameKey s := by
  induction fuel generalizing s with
  | zero => rfl
  | succ g ih =>
    simp only [popToAux]
    split
    · rw [ih, popInto_lastFrameKey]
    · rfl

theorem popToAux_ne_nil (fuel target : Nat) {s : List Frame} (h : s ≠ []) :
    popToAux fuel target s ≠ [] := by
  induction fuel generalizing s with
  | zero => exact h
  | succ g ih =>
    simp only [popToAux]
    split
    · exact ih (popInto_ne_nil h)
    · exact h

theorem popTo_stackIds (target : Nat) (s : List Frame) :
    stackIds (popTo target s) = stackIds s := popToAux_stackIds _ _ _

theorem popTo_stackTitles (target : Nat) (s : List Frame) :
    stackTitles (popTo target s) = stackTitles s := popToAux_stackTitles _ _ _

theorem popTo_lastFrameKey (target : Nat) (s : List Frame) :
    lastFrameKey (popTo target s) = lastFrameKey s := popToAux_lastFrameKey _ _ _

theorem popTo_ne_nil (target : Nat) {s : List Frame} (h : s ≠ []) :
    popTo target s ≠ [] := popToAux_ne_nil _ _ h

theorem popTo_singleton (target : Nat) (f : Frame) : popTo target [f] = [f] := by
  simp only [popTo, popToAux, popInto]
  split <;> rfl

theorem closeAll_cons_cons (f g : Frame) (rest : List Frame) :
    closeAll (f :: g :: rest) = closeAll (mergeFrame f g :: rest) := rfl

theorem closeAll_ids {s : List Frame} (h : s ≠ []) :
    preorderIds (closeAll s) = stackIds s := by
  cases s with
  | nil => exact absurd rfl h
  | cons f rest =>
    induction rest generalizing f with
    | nil => simp [closeAll, closeFrame, preorderIds, stackIds]
    | cons g rest' ih =>
      rw [closeAll_cons_cons, ih (mergeFrame f g) (by simp), stackIds_merge]

theorem closeAll_titles {s : List Frame} (h : s ≠ []) :
    preorderTitles (closeAll s) = stackTitles s := by
  cases s with
  | nil => exact absurd rfl h
  | cons f rest =>
    induction rest generalizing f with
    | nil => simp [closeAll, closeFrame, preorderTitles, stackTitles]
    | cons g rest' ih =>
      rw [closeAll_cons_cons, ih (mergeFrame f g) (by simp), stackTitles_merge]

theorem closeAll_key {s : List Frame} (h : s ≠ []) :
    some ((closeAll s).id, (closeAll s).title) = lastFrameKey s := by
  cases s with
  | nil => exact absurd rfl h
  | cons f rest =>
    induction rest generalizing f with
    | nil => rfl
    | cons g rest' ih =>
      rw [closeAll_cons_cons, ih (mergeFrame f g) (by simp), lastFrameKey_merge]

/-! ### The parsing loop invariant -/

theorem processLine_blank {line : List Char} (hb : isBlankLine line = true)
    (st : Nat × List Frame) : processLine st line = st := by
  simp [processLine, hb]

theorem processLine_nonblank {line : List Char} (hb : isBlankLine line = false)
    (c0 : Nat) (stack : List Frame) :
    processLine (c0, stack) line
      = (c0 + 1, ⟨mkId (c0 + 1), cleanText (pstrip line), []⟩
          :: popTo (getIndentLevel line + 1) stack) := by
  simp [processLine, hb, getNextId]

theorem fold_invariant (ls : List (List Char)) :
    ∀ (c0 : Nat) (stack : List Frame), stack ≠ [] →
      (ls.foldl processLine (c0, stack)).1
        = c0 + (ls.filter (fun l => !isBlankLine l)).length
      ∧ stackIds (ls.foldl processLine (c0, stack)).2
          = stackIds stack
            ++ (List.range' (c0 + 1) ((ls.filter (fun l => !isBlankLine l)).length)).map mkId
      ∧ stackTitles (ls.foldl processLine (c0, stack)).2
          = stackTitles stack
            ++ (ls.filter (fun l => !isBlankLine l)).map (fun l => cleanText (pstrip l))
      ∧ (ls.foldl processLine (c0, stack)).2 ≠ []
      ∧ lastFrameKey (ls.foldl processLine (c0, stack)).2 = lastFrameKey stack := by
  induction ls with
  | nil =>
    intro c0 stack h
    exact ⟨by simp, by simp, by simp, h, rfl⟩
  | cons line rest ih =>
    intro c0 stack h
    rw [List.foldl_cons]
    by_cases hb : isBlankLine line
    · rw [processLine_blank hb]
      have hi := ih c0 stack h
      simpa [List.filter_cons, hb] using hi
    · have hb' : isBlankLine line = false := by simpa using hb
      rw [processLine_nonblank hb']
      have hpop := popTo_ne_nil (getIndentLevel line + 1) h
      obtain ⟨i1, i2, i3, i4, i5⟩ :=
        ih (c0 + 1)
          (⟨mkId (c0 + 1), cleanText (pstrip line), []⟩
            :: popTo (getIndentLevel line + 1) stack) (by simp)
      have hsid : stackIds
          (⟨mkId (c0 + 1), cleanText (pstrip line), []⟩
            :: popTo (getIndentLevel line + 1) stack)
          = stackIds stack ++ [mkId (c0 + 1)] := by
        simp [stackIds, forestIds, popTo_stackIds]
      have hst : stackTitles
          (⟨mkId (c0 + 1), cleanText (pstrip line), []⟩
            :: popTo (getIndentLevel line + 1) stack)
          = stackTitles stack ++ [cleanText (pstrip line)] := by
        simp [stackTitles, forestTitles, popTo_stackTitles]
      have hkey : lastFrameKey
          (⟨mkId (c0 + 1), cleanText (pstrip line), []⟩
            :: popTo (getIndentLevel line + 1) stack)
          = lastFrameKey stack := by
        unfold lastFrameKey
        rw [getLast?_cons_of_ne_nil _ hpop]
        have h2 := popTo_lastFrameKey (getIndentLevel line + 1) stack
        unfold lastFrameKey at h2
        exact h2
      have hflen : (List.filter (fun l => !isBlankLine l) (line :: rest)).length
          = (List.filter (fun l => !isBlankLine l) rest).length + 1 := by
        simp [List.filter_cons, hb']
      refine ⟨?_, ?_, ?_, i4, ?_⟩
      · rw [i1, hflen]; omega
      · rw [i2, hsid, List.append_assoc, hflen, List.range'_succ (c0 + 1) _ 1]
        simp
      · rw [i3, hst, List.append_assoc]
        congr 1
        simp [List.filter_cons, hb']
      · rw [i5, hkey]

/-- Full characterisation of a parse run by the spec algorithm (and, through
the strip-equivalence below, of `parseContent` itself): root id, root title,
final counter, and the pre-order ids and titles of the whole tree. -/
theorem specParse_char (c0 : Nat) (content : List Char) :
    (specParse c0 content).1.id = mkId (c0 + 1)
    ∧ (specParse c0 content).1.title = "测试用例".data
    ∧ (specParse c0 content).2 = c0 + 1 + countNonBlank content
    ∧ preorderIds (specParse c0 content).1
        = (List.range' (c0 + 1) (countNonBlank content + 1)).map mkId
    ∧ preorderTitles (specParse c0 content).1
        = "测试用例".data :: (nonBlankLines content).map (fun l => cleanText (pstrip l)) := by
  obtain ⟨i1, i2, i3, i4, i5⟩ :=
    fold_invariant (splitLines content) (c0 + 1)
      [⟨mkId (c0 + 1), "测试用例".data, []⟩] (by simp)
  have hsp1 : (specParse c0 content).1
      = closeAll ((splitLines content).foldl processLine
          (c0 + 1, [⟨mkId (c0 + 1), "测试用例".data, []⟩])).2 := by
    simp [specParse, getNextId]
  have hsp2 : (specParse c0 content).2
      = ((splitLines content).foldl processLine
          (c0 + 1, [⟨mkId (c0 + 1), "测试用例".data, []⟩])).1 := by
    simp [specParse, getNextId]
  have hk := closeAll_key i4
  rw [i5] at hk
  have hkroot : lastFrameKey [(⟨mkId (c0 + 1), "测试用例".data, []⟩ : Frame)]
      = some (mkId (c0 + 1), "测试用例".data) := rfl
  rw [hkroot] at hk
  have hpair := Option.some.inj hk
  refine ⟨?_, ?_, ?_, ?_, ?_⟩
  · rw [hsp1]; exact congrArg Prod.fst hpair
  · rw [hsp1]; exact congrArg Prod.snd hpair
  · rw [hsp2, i1]; rfl
  · rw [hsp1, closeAll_ids i4, i2]
    have hroot : stackIds [(⟨mkId (c0 + 1), "测试用例".data, []⟩ : Frame)]
        = [mkId (c0 + 1)] := by simp [stackIds, forestIds]
    rw [hroot, List.range'_succ (c0 + 1) _ 1]
    rfl
  · rw [hsp1, closeAll_titles i4, i3]
    have hroot : stackTitles [(⟨mkId (c0 + 1), "测试用例".data, []⟩ : Frame)]
        = ["测试用例".data] := by simp [stackTitles, forestTitles]
    rw [hroot]
    rfl

/-! ### Stripping the whole content does not change the parse -/

theorem processLine_snoc_space {c : Char} (hsp : isPySpace c = true)
    (st : Nat × List Frame) (line : List Char) :
    processLine st (line ++ [c]) = processLine st line := by
  by_cases hb : isBlankLine line
  · rw [processLine_blank hb, processLine_blank]
    rw [isBlankLine_snoc_space hsp]
    exact hb
  · have hb' : isBlankLine line = false := by simpa using hb
    have hb2 : isBlankLine (line ++ [c]) = false := by
      rw [isBlankLine_snoc_space hsp]; exact hb'
    cases st with
    | mk c0 stack =>
      rw [processLine_nonblank hb', processLine_nonblank hb2,
        getIndentLevel_append hb', pstrip_snoc_space hsp]

theorem foldl_modifyLast_snoc {c : Char} (hsp : isPySpace c = true)
    (ls : List (List Char)) (st : Nat × List Frame) :
    (modifyLastLine (fun l => l ++ [c]) ls).foldl processLine st
      = ls.foldl processLine st := by
  induction ls generalizing st with
  | nil => rfl
  | cons a t ih =>
    cases t with
    | nil => simp [modifyLastLine, List.foldl_cons, processLine_snoc_space hsp]
    | cons b u =>
      rw [modifyLastLine_cons _ _ (by simp), List.foldl_cons, List.foldl_cons, ih]

theorem fold_snoc_space {c : Char} (hsp : isPySpace c = true)
    (x : List Char) (st : Nat × List Frame) :
    (splitLines (x ++ [c])).foldl processLine st
      = (splitLines x).foldl processLine st := by
  by_cases hnl : c = '\n'
  · subst hnl
    rw [splitLines_snoc_newline, List.foldl_append]
    simp [processLine_blank (show isBlankLine [] = true by rfl)]
  · rw [splitLines_snoc_other hnl, foldl_modifyLast_snoc hsp]

theorem fold_rstrip (x : List Char) (st : Nat × List Frame) :
    (splitLines (rstrip x)).foldl processLine st
      = (splitLines x).foldl processLine st := by
  induction x using List.reverseRecOn with
  | nil => rfl
  | append_singleton y a ih =>
    by_cases hsp : isPySpace a
    · rw [rstrip_snoc_space hsp, ih, ← fold_snoc_space hsp]
    · have ha : isPySpace a = false := by simpa using hsp
      rw [rstrip_snoc_keep ha]

theorem fold_cons_space_initial {c : Char} (hsp : isPySpace c = true)
    (x : List Char) (c0 : Nat) (f : Frame) :
    (splitLines (c :: x)).foldl processLine (c0, [f])
      = (splitLines x).foldl processLine (c0, [f]) := by
  by_cases hnl : c = '\n'
  · subst hnl
    rw [splitLines_cons_newline, List.foldl_cons,
      processLine_blank (show isBlankLine [] = true from rfl)]
  · rw [splitLines_cons_other hnl, List.foldl_cons]
    have hsplit : splitLines x = (splitLines x).headI :: (splitLines x).tail :=
      (cons_headI_tail (splitLines_ne_nil x)).symm
    conv_rhs => rw [hsplit, List.foldl_cons]
    congr 1
    by_cases hb : isBlankLine (splitLines x).headI
    · rw [processLine_blank hb, processLine_blank]
      rw [isBlankLine_cons_space hsp]
      exact hb
    · have hb' : isBlankLine (splitLines x).headI = false := by simpa using hb
      have hb2 : isBlankLine (c :: (splitLines x).headI) = false := by
        rw [isBlankLine_cons_space hsp]; exact hb'
      rw [processLine_nonblank hb', processLine_nonblank hb2,
        pstrip_cons_space hsp, popTo_singleton, popTo_singleton]

theorem fold_lstrip (x : List Char) (c0 : Nat) (f : Frame) :
    (splitLines (lstrip x)).foldl processLine (c0, [f])
      = (splitLines x).foldl processLine (c0, [f]) := by
  induction x with
  | nil => rfl
  | cons c t ih =>
    by_cases hsp : isPySpace c
    · rw [lstrip_cons_space hsp, ih, ← fold_cons_space_initial hsp]
    · have hc : isPySpace c = false := by simpa using hsp
      have hl : lstrip (c :: t) = c :: t := by simp [lstrip, List.dropWhile_cons, hc]
      rw [hl]

theorem specParse_strip (c0 : Nat) (content : List Char) :
    specParse c0 (pstrip content) = specParse c0 content := by
  simp only [specParse, getNextId]
  rw [show pstrip content = rstrip (lstrip content) from rfl,
    fold_rstrip, fold_lstrip]

/-- The implementation's whole-content strip before splitting is invisible:
`_parse_content` computes exactly what the spec's stack algorithm computes
on the unstripped input. -/
theorem parseContent_eq_specParse (c0 : Nat) (content : List Char) :
    parseContent c0 content = specParse c0 content := by
  have h1 : parseContent c0 content = specParse c0 (pstrip content) := rfl
  rw [h1, specParse_strip]

/-! ### The string builder refines the spec's recursive construction rule -/

theorem nodeParts_ne_nil (n : Node) (k : Nat) : nodeParts n k ≠ [] := by
  cases n with
  | mk i t cs =>
    rw [nodeParts.eq_def]
    simp

theorem forestParts_ne_nil {ns : List Node} (h : ns ≠ []) (k : Nat) :
    forestParts ns k ≠ [] := by
  cases ns with
  | nil => exact absurd rfl h
  | cons n ns' =>
    simp only [forestParts]
    intro hcon
    exact nodeParts_ne_nil n k (List.append_eq_nil.mp hcon).1

theorem specNodeLines_ne_nil (n : Node) (k : Nat) : specNodeLines n k ≠ [] := by
  cases n with
  | mk i t cs =>
    rw [specNodeLines.eq_def]
    simp

theorem specForestLines_ne_nil {ns : List Node} (h : ns ≠ []) (k : Nat) :
    specForestLines ns k ≠ [] := by
  cases ns with
  | nil => exact absurd rfl h
  | cons n ns' =>
    simp only [specForestLines]
    intro hcon
    exact specNodeLines_ne_nil n k (List.append_eq_nil.mp hcon).1

theorem joinLines_wrap {P S : List (List Char)} (hP : P ≠ []) (hS : S ≠ [])
    {pre post : List (List Char)} (hpre : pre ≠ []) (hpost : post ≠ [])
    (h : joinLines P = joinLines S) :
    joinLines (pre ++ P ++ post) = joinLines (pre ++ S ++ post) := by
  have hPp : P ++ post ≠ [] := by
    intro hcon; exact hP (List.append_eq_nil.mp hcon).1
  have hSp : S ++ post ≠ [] := by
    intro hcon; exact hS (List.append_eq_nil.mp hcon).1
  rw [List.append_assoc pre P post, List.append_assoc pre S post,
    joinLines_append hpre hPp, joinLines_append hpre hSp,
    joinLines_append hP hpost, joinLines_append hS hpost, h]

mutual

theorem joinLines_nodeParts (n : Node) (k : Nat) :
    joinLines (nodeParts n k) = joinLines (specNodeLines n k) := by
  cases n with
  | mk i t cs =>
    cases cs with
    | nil => rfl
    | cons c cs' =>
      simp only [nodeParts, specNodeLines]
      have hinner : joinLines (nodeParts c (k + 6) ++ forestParts cs' (k + 6))
          = joinLines (specNodeLines c (k + 6) ++ specForestLines cs' (k + 6)) := by
        have hjf := joinLines_forestParts (c :: cs') (k + 6)
        simpa [forestParts, specForestLines] using hjf
      have hblock : childrenBlock
            (nodeParts c (k + 6) ++ forestParts cs' (k + 6)) (k + 6)
          = joinLines (specWrap
              (specNodeLines c (k + 6) ++ specForestLines cs' (k + 6)) (k + 6)) := by
        unfold childrenBlock specWrap
        exact joinLines_wrap
          (fun hcon => nodeParts_ne_nil c (k + 6) (List.append_eq_nil.mp hcon).1)
          (fun hcon => specNodeLines_ne_nil c (k + 6) (List.append_eq_nil.mp hcon).1)
          (by simp) (by simp) hinner
      exact joinLines_wrap (by simp) (by simp [specWrap]) (by simp) (by simp)
        (by simpa [joinLines] using hblock)

theorem joinLines_forestParts (ns : List Node) (k : Nat) :
    joinLines (forestParts ns k) = joinLines (specForestLines ns k) := by
  cases ns with
  | nil => rfl
  | cons n ns' =>
    cases ns' with
    | nil => simpa [forestParts, specForestLines] using joinLines_nodeParts n k
    | cons m ms =>
      rw [show forestParts (n :: m :: ms) k
            = nodeParts n k ++ forestParts (m :: ms) k from rfl,
        show specForestLines (n :: m :: ms) k
            = specNodeLines n k ++ specForestLines (m :: ms) k from rfl,
        joinLines_append (nodeParts_ne_nil n k) (forestParts_ne_nil (by simp) k),
        joinLines_append (specNodeLines_ne_nil n k) (specForestLines_ne_nil (by simp) k),
        joinLines_nodeParts n k, joinLines_forestParts (m :: ms) k]

end

/-- `_build_simple_children_xml` emits exactly the newline-join of the lines
the spec's recursive construction rule prescribes (and nothing for no
children). -/
theorem buildSimpleChildrenXml_eq (ns : List Node) (k : Nat) :
    buildSimpleChildrenXml ns k
      = if ns.isEmpty then [] else joinLines (specChildrenLines ns k) := by
  cases ns with
  | nil => rfl
  | cons c cs =>
    simp only [buildSimpleChildrenXml, specChildrenLines, List.isEmpty_cons,
      Bool.false_eq_true, if_false]
    have hinner : joinLines (nodeParts c k ++ forestParts cs k)
        = joinLines (specNodeLines c k ++ specForestLines cs k) := by
      have hjf := joinLines_forestParts (c :: cs) k
      simpa [forestParts, specForestLines] using hjf
    unfold childrenBlock specWrap
    exact joinLines_wrap
      (fun hcon => nodeParts_ne_nil c k (List.append_eq_nil.mp hcon).1)
      (fun hcon => specNodeLines_ne_nil c k (List.append_eq_nil.mp hcon).1)
      (by simp) (by simp) hinner

/-! ### Classifying the emitted lines -/

theorem isPrefixOf_append_self (p r : List Char) : p.isPrefixOf (p ++ r) = true := by
  induction p with
  | nil => simp [List.isPrefixOf]
  | cons a as ih => simp [List.isPrefixOf, ih]

theorem lineTag_indent_lt (m : Nat) (r : List Char) :
    lineTag (indentSpaces m ++ '<' :: r) = '<' :: r := by
  unfold lineTag indentSpaces
  induction m with
  | zero => simp [List.dropWhile_cons]
  | succ q ih =>
    simp only [List.replicate_succ, List.cons_append, List.dropWhile_cons]
    simp only [decide_eq_true_eq, if_pos rfl]
    exact ih

theorem indentSpaces_two (m : Nat) (z : List Char) :
    indentSpaces m ++ ' ' :: ' ' :: z = indentSpaces (m + 2) ++ z := by
  unfold indentSpaces
  rw [List.replicate_add]
  simp

theorem lineTag_topicOpen (m : Nat) (i : List Char) :
    lineTag (indentSpaces m ++ "<topic id=\"".data ++ i ++ "\">".data)
      = "<topic id=\"".data ++ (i ++ "\">".data) := by
  rw [List.append_assoc, List.append_assoc,
    show "<topic id=\"".data ++ (i ++ "\">".data)
        = '<' :: ("topic id=\"".data ++ (i ++ "\">".data)) from rfl,
    lineTag_indent_lt]

theorem lineTag_titleLine (m : Nat) (t : List Char) :
    lineTag (indentSpaces m ++ "  <title>".data ++ t ++ "</title>".data)
      = "<title>".data ++ (t ++ "</title>".data) := by
  rw [List.append_assoc, List.append_assoc,
    show "  <title>".data ++ (t ++ "</title>".data)
        = ' ' :: ' ' :: ('<' :: ("title>".data ++ (t ++ "</title>".data))) from rfl,
    indentSpaces_two, lineTag_indent_lt]
  rfl

theorem isTopicOpenLine_topicOpen (m : Nat) (i : List Char) :
    isTopicOpenLine (indentSpaces m ++ "<topic id=\"".data ++ i ++ "\">".data) = true := by
  unfold isTopicOpenLine
  rw [lineTag_topicOpen, ← List.append_assoc]
  exact isPrefixOf_append_self _ _

theorem isTopicOpenLine_titleLine (m : Nat) (t : List Char) :
    isTopicOpenLine (indentSpaces m ++ "  <title>".data ++ t ++ "</title>".data) = false := by
  unfold isTopicOpenLine
  rw [lineTag_titleLine]
  simp [List.isPrefixOf]

theorem isTopicOpenLine_childrenOpen (m : Nat) :
    isTopicOpenLine (indentSpaces m ++ "<children>".data) = false := by
  unfold isTopicOpenLine
  rw [show ("<children>".data : List Char) = '<' :: "children>".data from rfl,
    lineTag_indent_lt]
  decide

theorem isTopicOpenLine_topicsOpen (m : Nat) :
    isTopicOpenLine (indentSpaces m ++ "<topics type=\"attached\">".data) = false := by
  unfold isTopicOpenLine
  rw [show ("<topics type=\"attached\">".data : List Char)
      = '<' :: "topics type=\"attached\">".data from rfl, lineTag_indent_lt]
  decide

theorem isTopicOpenLine_topicClose (m : Nat) :
    isTopicOpenLine (indentSpaces m ++ "</topic>".data) = false := by
  unfold isTopicOpenLine
  rw [show ("</topic>".data : List Char) = '<' :: "/topic>".data from rfl, lineTag_indent_lt]
  decide

theorem isTopicOpenLine_topicsClose (m : Nat) :
    isTopicOpenLine (indentSpaces m ++ "</topics>".data) = false := by
  unfold isTopicOpenLine
  rw [show ("</topics>".data : List Char) = '<' :: "/topics>".data from rfl, lineTag_indent_lt]
  decide

theorem isTopicOpenLine_childrenClose (m : Nat) :
    isTopicOpenLine (indentSpaces m ++ "</children>".data) = false := by
  unfold isTopicOpenLine
  rw [show ("</children>".data : List Char) = '<' :: "/children>".data from rfl,
    lineTag_indent_lt]
  decide

theorem isChildrenOpenLine_childrenOpen (m : Nat) :
    isChildrenOpenLine (indentSpaces m ++ "<children>".data) = true := by
  unfold isChildrenOpenLine
  rw [show ("<children>".data : List Char) = '<' :: "children>".data from rfl,
    lineTag_indent_lt]
  decide

theorem isChildrenOpenLine_topicOpen (m : Nat) (i : List Char) :
    isChildrenOpenLine (indentSpaces m ++ "<topic id=\"".data ++ i ++ "\">".data) = false := by
  unfold isChildrenOpenLine
  rw [lineTag_topicOpen]
  simp [List.isPrefixOf]

theorem isChildrenOpenLine_titleLine (m : Nat) (t : List Char) :
    isChildrenOpenLine (indentSpaces m ++ "  <title>".data ++ t ++ "</title>".data)
      = false := by
  unfold isChildrenOpenLine
  rw [lineTag_titleLine]
  simp [List.isPrefixOf]

theorem isChildrenOpenLine_topicsOpen (m : Nat) :
    isChildrenOpenLine (indentSpaces m ++ "<topics type=\"attached\">".data) = false := by
  unfold isChildrenOpenLine
  rw [show ("<topics type=\"attached\">".data : List Char)
      = '<' :: "topics type=\"attached\">".data from rfl, lineTag_indent_lt]
  decide

theorem isChildrenOpenLine_topicClose (m : Nat) :
    isChildrenOpenLine (indentSpaces m ++ "</topic>".data) = false := by
  unfold isChildrenOpenLine
  rw [show ("</topic>".data : List Char) = '<' :: "/topic>".data from rfl, lineTag_indent_lt]
  decide

theorem isChildrenOpenLine_topicsClose (m : Nat) :
    isChildrenOpenLine (indentSpaces m ++ "</topics>".data) = false := by
  unfold isChildrenOpenLine
  rw [show ("</topics>".data : List Char) = '<' :: "/topics>".data from rfl, lineTag_indent_lt]
  decide

theorem isChildrenOpenLine_childrenClose (m : Nat) :
    isChildrenOpenLine (indentSpaces m ++ "</children>".data) = false := by
  unfold isChildrenOpenLine
  rw [show ("</children>".data : List Char) = '<' :: "/children>".data from rfl,
    lineTag_indent_lt]
  decide

theorem isTopicsOpenLine_topicsOpen (m : Nat) :
    isTopicsOpenLine (indentSpaces m ++ "<topics type=\"attached\">".data) = true := by
  unfold isTopicsOpenLine
  rw [show ("<topics type=\"attached\">".data : List Char)
      = '<' :: "topics type=\"attached\">".data from rfl, lineTag_indent_lt]
  decide

theorem isTopicsOpenLine_topicOpen (m : Nat) (i : List Char) :
    isTopicsOpenLine (indentSpaces m ++ "<topic id=\"".data ++ i ++ "\">".data) = false := by
  unfold isTopicsOpenLine
  rw [lineTag_topicOpen]
  simp [List.isPrefixOf]

theorem isTopicsOpenLine_titleLine (m : Nat) (t : List Char) :
    isTopicsOpenLine (indentSpaces m ++ "  <title>".data ++ t ++ "</title>".data) = false := by
  unfold isTopicsOpenLine
  rw [lineTag_titleLine]
  simp [List.isPrefixOf]

theorem isTopicsOpenLine_childrenOpen (m : Nat) :
    isTopicsOpenLine (indentSpaces m ++ "<children>".data) = false := by
  unfold isTopicsOpenLine
  rw [show ("<children>".data : List Char) = '<' :: "children>".data from rfl,
    lineTag_indent_lt]
  decide

theorem isTopicsOpenLine_topicClose (m : Nat) :
    isTopicsOpenLine (indentSpaces m ++ "</topic>".data) = false := by
  unfold isTopicsOpenLine
  rw [show ("</topic>".data : List Char) = '<' :: "/topic>".data from rfl, lineTag_indent_lt]
  decide

theorem isTopicsOpenLine_topicsClose (m : Nat) :
    isTopicsOpenLine (indentSpaces m ++ "</topics>".data) = false := by
  unfold isTopicsOpenLine
  rw [show ("</topics>".data : List Char) = '<' :: "/topics>".data from rfl, lineTag_indent_lt]
  decide

theorem isTopicsOpenLine_childrenClose (m : Nat) :
    isTopicsOpenLine (indentSpaces m ++ "</children>".data) = false := by
  unfold isTopicsOpenLine
  rw [show ("</children>".data : List Char) = '<' :: "/children>".data from rfl,
    lineTag_indent_lt]
  decide

/-! ### Counting elements in the spec lines -/

theorem countP_cons_true {p : List Char → Bool} {a : List Char} (h : p a = true)
    (l : List (List Char)) : (a :: l).countP p = l.countP p + 1 := by
  rw [List.countP_cons, h]
  simp

theorem countP_cons_false {p : List Char → Bool} {a : List Char} (h : p a = false)
    (l : List (List Char)) : (a :: l).countP p = l.countP p := by
  rw [List.countP_cons, h]
  simp

mutual

theorem counts_node (n : Node) (k : Nat) :
    (specNodeLines n k).countP isTopicOpenLine = nodeSize n
    ∧ (specNodeLines n k).countP isChildrenOpenLine = nodeWrappers n
    ∧ (specNodeLines n k).countP isTopicsOpenLine = nodeWrappers n := by
  cases n with
  | mk i t cs =>
    cases cs with
    | nil =>
      have hlines : specNodeLines (Node.mk i t []) k
          = [indentSpaces (k + 4) ++ "<topic id=\"".data ++ i ++ "\">".data,
             indentSpaces (k + 4) ++ "  <title>".data ++ t ++ "</title>".data,
             indentSpaces (k + 4) ++ "</topic>".data] := rfl
      have hs : nodeSize (Node.mk i t []) = 1 := rfl
      have hw : nodeWrappers (Node.mk i t []) = 0 := rfl
      rw [hlines, hs, hw]
      refine ⟨?_, ?_, ?_⟩
      · rw [countP_cons_true (isTopicOpenLine_topicOpen (k + 4) i),
          countP_cons_false (isTopicOpenLine_titleLine (k + 4) t),
          countP_cons_false (isTopicOpenLine_topicClose (k + 4)), List.countP_nil]
      · rw [countP_cons_false (isChildrenOpenLine_topicOpen (k + 4) i),
          countP_cons_false (isChildrenOpenLine_titleLine (k + 4) t),
          countP_cons_false (isChildrenOpenLine_topicClose (k + 4)), List.countP_nil]
      · rw [countP_cons_false (isTopicsOpenLine_topicOpen (k + 4) i),
          countP_cons_false (isTopicsOpenLine_titleLine (k + 4) t),
          countP_cons_false (isTopicsOpenLine_topicClose (k + 4)), List.countP_nil]
    | cons c cs' =>
      obtain ⟨f1, f2, f3⟩ := counts_forest (c :: cs') (k + 6)
      have hlines : specNodeLines (Node.mk i t (c :: cs')) k
          = [indentSpaces (k + 4) ++ "<topic id=\"".data ++ i ++ "\">".data,
             indentSpaces (k + 4) ++ "  <title>".data ++ t ++ "</title>".data]
            ++ ([indentSpaces (k + 6) ++ "<children>".data,
                 indentSpaces (k + 6 + 2) ++ "<topics type=\"attached\">".data]
                ++ specForestLines (c :: cs') (k + 6)
                ++ [indentSpaces (k + 6 + 2) ++ "</topics>".data,
                    indentSpaces (k + 6) ++ "</children>".data])
            ++ [indentSpaces (k + 4) ++ "</topic>".data] := rfl
      have hs : nodeSize (Node.mk i t (c :: cs')) = 1 + forestSize (c :: cs') := rfl
      have hw1 : nodeWrappers (Node.mk i t (c :: cs'))
          = 1 + nodeWrappers c + forestWrappers cs' := rfl
      have hw2 : forestWrappers (c :: cs') = nodeWrappers c + forestWrappers cs' := rfl
      rw [hlines]
      refine ⟨?_, ?_, ?_⟩
      · rw [List.countP_append, List.countP_append, List.countP_append, List.countP_append,
          countP_cons_true (isTopicOpenLine_topicOpen (k + 4) i),
          countP_cons_false (isTopicOpenLine_titleLine (k + 4) t),
          countP_cons_false (isTopicOpenLine_childrenOpen (k + 6)),
          countP_cons_false (isTopicOpenLine_topicsOpen (k + 6 + 2)),
          countP_cons_false (isTopicOpenLine_topicsClose (k + 6 + 2)),
          countP_cons_false (isTopicOpenLine_childrenClose (k + 6)),
          countP_cons_false (isTopicOpenLine_topicClose (k + 4)),
          List.countP_nil, f1, hs]
        omega
      · rw [List.countP_append, List.countP_append, List.countP_append, List.countP_append,
          countP_cons_false (isChildrenOpenLine_topicOpen (k + 4) i),
          countP_cons_false (isChildrenOpenLine_titleLine (k + 4) t),
          countP_cons_true (isChildrenOpenLine_childrenOpen (k + 6)),
          countP_cons_false (isChildrenOpenLine_topicsOpen (k + 6 + 2)),
          countP_cons_false (isChildrenOpenLine_topicsClose (k + 6 + 2)),
          countP_cons_false (isChildrenOpenLine_childrenClose (k + 6)),
          countP_cons_false (isChildrenOpenLine_topicClose (k + 4)),
          List.countP_nil, f2, hw1]
        omega
      · rw [List.countP_append, List.countP_append, List.countP_append, List.countP_append,
          countP_cons_false (isTopicsOpenLine_topicOpen (k + 4) i),
          countP_cons_false (isTopicsOpenLine_titleLine (k + 4) t),
          countP_cons_false (isTopicsOpenLine_childrenOpen (k + 6)),
          countP_cons_true (isTopicsOpenLine_topicsOpen (k + 6 + 2)),
          countP_cons_false (isTopicsOpenLine_topicsClose (k + 6 + 2)),
          countP_cons_false (isTopicsOpenLine_childrenClose (k + 6)),
          countP_cons_false (isTopicsOpenLine_topicClose (k + 4)),
          List.countP_nil, f3, hw1]
        omega

theorem counts_forest (ns : List Node) (k : Nat) :
    (specForestLines ns k).countP isTopicOpenLine = forestSize ns
    ∧ (specForestLines ns k).countP isChildrenOpenLine = forestWrappers ns
    ∧ (specForestLines ns k).countP isTopicsOpenLine = forestWrappers ns := by
  cases ns with
  | nil => exact ⟨rfl, rfl, rfl⟩
  | cons n ns' =>
    obtain ⟨a1, a2, a3⟩ := counts_node n k
    obtain ⟨b1, b2, b3⟩ := counts_forest ns' k
    have h : specForestLines (n :: ns') k
        = specNodeLines n k ++ specForestLines ns' k := rfl
    have hs : forestSize (n :: ns') = nodeSize n + forestSize ns' := rfl
    have hw : forestWrappers (n :: ns') = nodeWrappers n + forestWrappers ns' := rfl
    rw [h]
    exact ⟨by rw [List.countP_append, a1, b1, hs],
      by rw [List.countP_append, a2, b2, hw],
      by rw [List.countP_append, a3, b3, hw]⟩

end

theorem counts_specChildrenLines (ns : List Node) (k : Nat) :
    (specChildrenLines ns k).countP isTopicOpenLine = forestSize ns
    ∧ (specChildrenLines ns k).countP isChildrenOpenLine
        = (if ns.isEmpty then 0 else 1) + forestWrappers ns
    ∧ (specChildrenLines ns k).countP isTopicsOpenLine
        = (if ns.isEmpty then 0 else 1) + forestWrappers ns := by
  cases ns with
  | nil => exact ⟨rfl, rfl, rfl⟩
  | cons c cs =>
    obtain ⟨f1, f2, f3⟩ := counts_forest (c :: cs) k
    have hlines : specChildrenLines (c :: cs) k
        = [indentSpaces k ++ "<children>".data,
           indentSpaces (k + 2) ++ "<topics type=\"attached\">".data]
          ++ specForestLines (c :: cs) k
          ++ [indentSpaces (k + 2) ++ "</topics>".data,
              indentSpaces k ++ "</children>".data] := rfl
    have hw : forestWrappers (c :: cs) = nodeWrappers c + forestWrappers cs := rfl
    have hemp : ((c :: cs : List Node).isEmpty = false) := rfl
    rw [hlines, hemp]
    refine ⟨?_, ?_, ?_⟩
    · rw [List.countP_append, List.countP_append,
        countP_cons_false (isTopicOpenLine_childrenOpen k),
        countP_cons_false (isTopicOpenLine_topicsOpen (k + 2)),
        countP_cons_false (isTopicOpenLine_topicsClose (k + 2)),
        countP_cons_false (isTopicOpenLine_childrenClose k),
        List.countP_nil, f1]
      omega
    · rw [List.countP_append, List.countP_append,
        countP_cons_true (isChildrenOpenLine_childrenOpen k),
        countP_cons_false (isChildrenOpenLine_topicsOpen (k + 2)),
        countP_cons_false (isChildrenOpenLine_topicsClose (k + 2)),
        countP_cons_false (isChildrenOpenLine_childrenClose k),
        List.countP_nil, f2]
      have hif : (if (false = true) then (0 : Nat) else 1) = 1 := rfl
      rw [hif]
      omega
    · rw [List.countP_append, List.countP_append,
        countP_cons_false (isTopicsOpenLine_childrenOpen k),
        countP_cons_true (isTopicsOpenLine_topicsOpen (k + 2)),
        countP_cons_false (isTopicsOpenLine_topicsClose (k + 2)),
        countP_cons_false (isTopicsOpenLine_childrenClose k),
        List.countP_nil, f3]
      have hif : (if (false = true) then (0 : Nat) else 1) = 1 := rfl
      rw [hif]
      omega

mutual

theorem preorderIds_length (n : Node) : (preorderIds n).length = nodeSize n := by
  cases n with
  | mk i t cs =>
    have h := forestIds_length cs
    have h1 : preorderIds (Node.mk i t cs) = i :: forestIds cs := rfl
    have h2 : nodeSize (Node.mk i t cs) = 1 + forestSize cs := rfl
    rw [h1, h2, List.length_cons, h]
    omega

theorem forestIds_length (ns : List Node) : (forestIds ns).length = forestSize ns := by
  cases ns with
  | nil => rfl
  | cons n ns' =>
    have h1 := preorderIds_length n
    have h2 := forestIds_length ns'
    have h3 : forestIds (n :: ns') = preorderIds n ++ forestIds ns' := rfl
    have h4 : forestSize (n :: ns') = nodeSize n + forestSize ns' := rfl
    rw [h3, h4, List.length_append, h1, h2]

end

/-! ### The emitted document, line by line -/

theorem specChildrenLines_ne_nil {ns : List Node} (h : ns ≠ []) (k : Nat) :
    specChildrenLines ns k ≠ [] := by
  cases ns with
  | nil => exact absurd rfl h
  | cons c cs => simp [specChildrenLines, specWrap]

theorem contentXml_eq_joinLines (root : Node) :
    contentXml root = joinLines (specContentLines root) := by
  cases root with
  | mk i t cs =>
    cases cs with
    | nil =>
      have h1 : buildSimpleChildrenXml [] 6 = [] := rfl
      simp [contentXml, specContentLines, joinLines, Node.id, Node.title, Node.children,
        h1, List.append_assoc]
    | cons c cs' =>
      have hbuild : buildSimpleChildrenXml (c :: cs') 6
          = joinLines (specChildrenLines (c :: cs') 6) := by
        rw [buildSimpleChildrenXml_eq]
        rfl
      have hA : (["<?xml version=\"1.0\" encoding=\"UTF-8\"?>".data,
          "<xmap-content xmlns=\"urn:xmind:xmap:xmlns:content:2.0\" version=\"2.0\">".data,
          "  <sheet id=\"sheet1\">".data,
          "    <topic id=\"".data ++ (Node.mk i t (c :: cs')).id
            ++ "\" structure-class=\"org.xmind.ui.logic.right\">".data,
          "      <title>".data ++ (Node.mk i t (c :: cs')).title ++ "</title>".data]
          : List (List Char)) ≠ [] := by simp
      have hF : (["    </topic>".data, "  </sheet>".data, "</xmap-content>".data]
          : List (List Char)) ≠ [] := by simp
      have hM := specChildrenLines_ne_nil (show (c :: cs' : List Node) ≠ [] by simp) 6
      have hMF : specChildrenLines (c :: cs') 6
          ++ (["    </topic>".data, "  </sheet>".data, "</xmap-content>".data]
              : List (List Char)) ≠ [] := by
        intro hcon
        exact hM (List.append_eq_nil.mp hcon).1
      have hsc : specContentLines (Node.mk i t (c :: cs'))
          = ["<?xml version=\"1.0\" encoding=\"UTF-8\"?>".data,
             "<xmap-content xmlns=\"urn:xmind:xmap:xmlns:content:2.0\" version=\"2.0\">".data,
             "  <sheet id=\"sheet1\">".data,
             "    <topic id=\"".data ++ (Node.mk i t (c :: cs')).id
               ++ "\" structure-class=\"org.xmind.ui.logic.right\">".data,
             "      <title>".data ++ (Node.mk i t (c :: cs')).title ++ "</title>".data]
            ++ (specChildrenLines (c :: cs') 6
                ++ ["    </topic>".data, "  </sheet>".data, "</xmap-content>".data]) := by
        unfold specContentLines
        rw [show (Node.mk i t (c :: cs')).children = c :: cs' from rfl,
          show ((c :: cs' : List Node)).isEmpty = false from rfl]
        simp
      rw [hsc, joinLines_append hA hMF, joinLines_append hM hF]
      simp only [contentXml, Node.id, Node.title, Node.children, hbuild]
      simp [joinLines, List.append_assoc]

theorem newline_not_mem_indentSpaces (m : Nat) : '\n' ∉ indentSpaces m := by
  intro h
  have := List.eq_of_mem_replicate h
  simp at this

theorem no_newline_append {a b : List Char} (ha : '\n' ∉ a) (hb : '\n' ∉ b) :
    '\n' ∉ a ++ b := by
  intro h
  rcases List.mem_append.mp h with h1 | h1
  · exact ha h1
  · exact hb h1

mutual

theorem specNodeLines_no_newline (n : Node) (k : Nat)
    (hi : ∀ x ∈ preorderIds n, '\n' ∉ x) (ht : ∀ x ∈ preorderTitles n, '\n' ∉ x) :
    ∀ l ∈ specNodeLines n k, '\n' ∉ l := by
  cases n with
  | mk i t cs =>
    have hid : '\n' ∉ i := hi i (by
      rw [show preorderIds (Node.mk i t cs) = i :: forestIds cs from rfl]
      exact List.mem_cons_self i _)
    have htit : '\n' ∉ t := ht t (by
      rw [show preorderTitles (Node.mk i t cs) = t :: forestTitles cs from rfl]
      exact List.mem_cons_self t _)
    cases cs with
    | nil =>
      intro l hl
      rw [show specNodeLines (Node.mk i t []) k
          = [indentSpaces (k + 4) ++ "<topic id=\"".data ++ i ++ "\">".data,
             indentSpaces (k + 4) ++ "  <title>".data ++ t ++ "</title>".data,
             indentSpaces (k + 4) ++ "</topic>".data] from rfl] at hl
      rcases List.mem_cons.mp hl with h | hl
      · subst h
        exact no_newline_append (no_newline_append (no_newline_append
          (newline_not_mem_indentSpaces _) (by decide)) hid) (by decide)
      rcases List.mem_cons.mp hl with h | hl
      · subst h
        exact no_newline_append (no_newline_append (no_newline_append
          (newline_not_mem_indentSpaces _) (by decide)) htit) (by decide)
      rcases List.mem_cons.mp hl with h | hl
      · subst h
        exact no_newline_append (newline_not_mem_indentSpaces _) (by decide)
      · simp at hl
    | cons c cs' =>
      have hif : ∀ x ∈ forestIds (c :: cs'), '\n' ∉ x := by
        intro x hx
        exact hi x (by
          rw [show preorderIds (Node.mk i t (c :: cs')) = i :: forestIds (c :: cs') from rfl]
          exact List.mem_cons_of_mem _ hx)
      have htf : ∀ x ∈ forestTitles (c :: cs'), '\n' ∉ x := by
        intro x hx
        exact ht x (by
          rw [show preorderTitles (Node.mk i t (c :: cs'))
              = t :: forestTitles (c :: cs') from rfl]
          exact List.mem_cons_of_mem _ hx)
      have hrec := specForestLines_no_newline (c :: cs') (k + 6) hif htf
      intro l hl
      rw [show specNodeLines (Node.mk i t (c :: cs')) k
          = [indentSpaces (k + 4) ++ "<topic id=\"".data ++ i ++ "\">".data,
             indentSpaces (k + 4) ++ "  <title>".data ++ t ++ "</title>".data]
            ++ ([indentSpaces (k + 6) ++ "<children>".data,
                 indentSpaces (k + 6 + 2) ++ "<topics type=\"attached\">".data]
                ++ specForestLines (c :: cs') (k + 6)
                ++ [indentSpaces (k + 6 + 2) ++ "</topics>".data,
                    indentSpaces (k + 6) ++ "</children>".data])
            ++ [indentSpaces (k + 4) ++ "</topic>".data] from rfl] at hl
      rcases List.mem_append.mp hl with hl | hl
      · rcases List.mem_append.mp hl with hl | hl
        · rcases List.mem_cons.mp hl with h | hl
          · subst h
            exact no_newline_append (no_newline_append (no_newline_append
              (newline_not_mem_indentSpaces _) (by decide)) hid) (by decide)
          rcases List.mem_cons.mp hl with h | hl
          · subst h
            exact no_newline_append (no_newline_append (no_newline_append
              (newline_not_mem_indentSpaces _) (by decide)) htit) (by decide)
          · simp at hl
        · rcases List.mem_append.mp hl with hl | hl
          · rcases List.mem_append.mp hl with hl | hl
            · rcases List.mem_cons.mp hl with h | hl
              · subst h
                exact no_newline_append (newline_not_mem_indentSpaces _) (by decide)
              rcases List.mem_cons.mp hl with h | hl
              · subst h
                exact no_newline_append (newline_not_mem_indentSpaces _) (by decide)
              · simp at hl
            · exact hrec l hl
          · rcases List.mem_cons.mp hl with h | hl
            · subst h
              exact no_newline_append (newline_not_mem_indentSpaces _) (by decide)
            rcases List.mem_cons.mp hl with h | hl
            · subst h
              exact no_newline_append (newline_not_mem_indentSpaces _) (by decide)
            · simp at hl
      · rcases List.mem_cons.mp hl with h | hl
        · subst h
          exact no_newline_append (newline_not_mem_indentSpaces _) (by decide)
        · simp at hl

theorem specForestLines_no_newline (ns : List Node) (k : Nat)
    (hi : ∀ x ∈ forestIds ns, '\n' ∉ x) (ht : ∀ x ∈ forestTitles ns, '\n' ∉ x) :
    ∀ l ∈ specForestLines ns k, '\n' ∉ l := by
  cases ns with
  | nil => intro l hl; simp [show specForestLines [] k = [] from rfl] at hl
  | cons n ns' =>
    have h1 := specNodeLines_no_newline n k
      (fun x hx => hi x (by
        rw [show forestIds (n :: ns') = preorderIds n ++ forestIds ns' from rfl]
        exact List.mem_append.mpr (Or.inl hx)))
      (fun x hx => ht x (by
        rw [show forestTitles (n :: ns') = preorderTitles n ++ forestTitles ns' from rfl]
        exact List.mem_append.mpr (Or.inl hx)))
    have h2 := specForestLines_no_newline ns' k
      (fun x hx => hi x (by
        rw [show forestIds (n :: ns') = preorderIds n ++ forestIds ns' from rfl]
        exact List.mem_append.mpr (Or.inr hx)))
      (fun x hx => ht x (by
        rw [show forestTitles (n :: ns') = preorderTitles n ++ forestTitles ns' from rfl]
        exact List.mem_append.mpr (Or.inr hx)))
    intro l hl
    rw [show specForestLines (n :: ns') k
        = specNodeLines n k ++ specForestLines ns' k from rfl] at hl
    rcases List.mem_append.mp hl with hl | hl
    · exact h1 l hl
    · exact h2 l hl

end

theorem specContentLines_no_newline (root : Node)
    (hi : ∀ x ∈ preorderIds root, '\n' ∉ x) (ht : ∀ x ∈ preorderTitles root, '\n' ∉ x) :
    ∀ l ∈ specContentLines root, '\n' ∉ l := by
  cases root with
  | mk i t cs =>
    have hid : '\n' ∉ i := hi i (by
      rw [show preorderIds (Node.mk i t cs) = i :: forestIds cs from rfl]
      exact List.mem_cons_self i _)
    have htit : '\n' ∉ t := ht t (by
      rw [show preorderTitles (Node.mk i t cs) = t :: forestTitles cs from rfl]
      exact List.mem_cons_self t _)
    intro l hl
    unfold specContentLines at hl
    rcases List.mem_append.mp hl with hl | hl
    · rcases List.mem_append.mp hl with hl | hl
      · rcases List.mem_cons.mp hl with h | hl
        · subst h; decide
        rcases List.mem_cons.mp hl with h | hl
        · subst h; decide
        rcases List.mem_cons.mp hl with h | hl
        · subst h; decide
        rcases List.mem_cons.mp hl with h | hl
        · subst h
          exact no_newline_append (no_newline_append (by decide) hid) (by decide)
        rcases List.mem_cons.mp hl with h | hl
        · subst h
          exact no_newline_append (no_newline_append (by decide) htit) (by decide)
        · simp at hl
      · by_cases hcs : (Node.mk i t cs).children.isEmpty
        · rw [if_pos hcs] at hl
          rcases List.mem_cons.mp hl with h | hl
          · subst h; simp
          · simp at hl
        · rw [if_neg hcs] at hl
          cases cs with
          | nil => simp [Node.children] at hcs
          | cons c cs' =>
            have hif : ∀ x ∈ forestIds (c :: cs'), '\n' ∉ x := by
              intro x hx
              exact hi x (by
                rw [show preorderIds (Node.mk i t (c :: cs'))
                    = i :: forestIds (c :: cs') from rfl]
                exact List.mem_cons_of_mem _ hx)
            have htf : ∀ x ∈ forestTitles (c :: cs'), '\n' ∉ x := by
              intro x hx
              exact ht x (by
                rw [show preorderTitles (Node.mk i t (c :: cs'))
                    = t :: forestTitles (c :: cs') from rfl]
                exact List.mem_cons_of_mem _ hx)
            have hrec := specForestLines_no_newline (c :: cs') 6 hif htf
            rw [show (Node.mk i t (c :: cs')).children = c :: cs' from rfl,
              show specChildrenLines (c :: cs') 6
                = [indentSpaces 6 ++ "<children>".data,
                   indentSpaces (6 + 2) ++ "<topics type=\"attached\">".data]
                  ++ specForestLines (c :: cs') 6
                  ++ [indentSpaces (6 + 2) ++ "</topics>".data,
                      indentSpaces 6 ++ "</children>".data] from rfl] at hl
            rcases List.mem_append.mp hl with hl | hl
            · rcases List.mem_append.mp hl with hl | hl
              · rcases List.mem_cons.mp hl with h | hl
                · subst h
                  exact no_newline_append (newline_not_mem_indentSpaces _) (by decide)
                rcases List.mem_cons.mp hl with h | hl
                · subst h
                  exact no_newline_append (newline_not_mem_indentSpaces _) (by decide)
                · simp at hl
              · exact hrec l hl
            · rcases List.mem_cons.mp hl with h | hl
              · subst h
                exact no_newline_append (newline_not_mem_indentSpaces _) (by decide)
              rcases List.mem_cons.mp hl with h | hl
              · subst h
                exact no_newline_append (newline_not_mem_indentSpaces _) (by decide)
              · simp at hl
    · rcases List.mem_cons.mp hl with h | hl
      · subst h; decide
      rcases List.mem_cons.mp hl with h | hl
      · subst h; decide
      rcases List.mem_cons.mp hl with h | hl
      · subst h; decide
      · simp at hl

theorem specContentLines_ne_nil (root : Node) : specContentLines root ≠ [] := by
  unfold specContentLines
  simp

theorem splitLines_contentXml (root : Node)
    (hi : ∀ x ∈ preorderIds root, '\n' ∉ x) (ht : ∀ x ∈ preorderTitles root, '\n' ∉ x) :
    splitLines (contentXml root) = specContentLines root := by
  rw [contentXml_eq_joinLines]
  exact splitLines_joinLines (specContentLines_ne_nil root)
    (specContentLines_no_newline root hi ht)

/-! ### Counting topics in the whole document -/

theorem lineTag_topicOpenG (m : Nat) (i suffix : List Char) :
    lineTag (indentSpaces m ++ "<topic id=\"".data ++ i ++ suffix)
      = "<topic id=\"".data ++ (i ++ suffix) := by
  rw [List.append_assoc, List.append_assoc,
    show "<topic id=\"".data ++ (i ++ suffix)
        = '<' :: ("topic id=\"".data ++ (i ++ suffix)) from rfl,
    lineTag_indent_lt]

theorem isTopicOpenLine_rootTopic (i : List Char) :
    isTopicOpenLine ("    <topic id=\"".data ++ i
      ++ "\" structure-class=\"org.xmind.ui.logic.right\">".data) = true := by
  have h : ("    <topic id=\"".data : List Char) ++ i
      ++ "\" structure-class=\"org.xmind.ui.logic.right\">".data
      = indentSpaces 4 ++ "<topic id=\"".data ++ i
        ++ "\" structure-class=\"org.xmind.ui.logic.right\">".data := rfl
  rw [h]
  unfold isTopicOpenLine
  rw [lineTag_topicOpenG, ← List.append_assoc]
  exact isPrefixOf_append_self _ _

theorem isChildrenOpenLine_rootTopic (i : List Char) :
    isChildrenOpenLine ("    <topic id=\"".data ++ i
      ++ "\" structure-class=\"org.xmind.ui.logic.right\">".data) = false := by
  have h : ("    <topic id=\"".data : List Char) ++ i
      ++ "\" structure-class=\"org.xmind.ui.logic.right\">".data
      = indentSpaces 4 ++ "<topic id=\"".data ++ i
        ++ "\" structure-class=\"org.xmind.ui.logic.right\">".data := rfl
  rw [h]
  unfold isChildrenOpenLine
  rw [lineTag_topicOpenG]
  simp [List.isPrefixOf]

theorem rootTitle_line_eq (t : List Char) :
    ("      <title>".data : List Char) ++ t ++ "</title>".data
      = indentSpaces 4 ++ "  <title>".data ++ t ++ "</title>".data := rfl

theorem countP_specContentLines_topic (root : Node) :
    (specContentLines root).countP isTopicOpenLine = 1 + forestSize root.children := by
  cases root with
  | mk i t cs =>
    unfold specContentLines
    rw [show (Node.mk i t cs).id = i from rfl, show (Node.mk i t cs).title = t from rfl,
      show (Node.mk i t cs).children = cs from rfl]
    rw [rootTitle_line_eq]
    rw [List.countP_append, List.countP_append,
      countP_cons_false (show isTopicOpenLine
        ("<?xml version=\"1.0\" encoding=\"UTF-8\"?>".data) = false by decide),
      countP_cons_false (show isTopicOpenLine
        ("<xmap-content xmlns=\"urn:xmind:xmap:xmlns:content:2.0\" version=\"2.0\">".data)
          = false by decide),
      countP_cons_false (show isTopicOpenLine ("  <sheet id=\"sheet1\">".data) = false
        by decide),
      countP_cons_true (isTopicOpenLine_rootTopic i),
      countP_cons_false (isTopicOpenLine_titleLine 4 t),
      List.countP_nil,
      countP_cons_false (show isTopicOpenLine ("    </topic>".data) = false by decide),
      countP_cons_false (show isTopicOpenLine ("  </sheet>".data) = false by decide),
      countP_cons_false (show isTopicOpenLine ("</xmap-content>".data) = false by decide),
      List.countP_nil]
    cases cs with
    | nil =>
      rw [show ((([] : List Node)).isEmpty) = true from rfl, if_pos rfl,
        countP_cons_false (show isTopicOpenLine ([] : List Char) = false by decide),
        List.countP_nil, show forestSize [] = 0 from rfl]
    | cons c cs' =>
      rw [show ((c :: cs' : List Node)).isEmpty = false from rfl]
      have hif : (if (false = true) then [([] : List Char)] else specChildrenLines (c :: cs') 6)
          = specChildrenLines (c :: cs') 6 := rfl
      rw [hif, (counts_specChildrenLines (c :: cs') 6).1]
      omega

theorem countP_specContentLines_children_nil (i t : List Char) :
    (specContentLines (Node.mk i t [])).countP isChildrenOpenLine = 0 := by
  unfold specContentLines
  rw [show (Node.mk i t ([] : List Node)).id = i from rfl,
    show (Node.mk i t ([] : List Node)).title = t from rfl,
    show (Node.mk i t ([] : List Node)).children = ([] : List Node) from rfl]
  rw [rootTitle_line_eq]
  rw [List.countP_append, List.countP_append,
    countP_cons_false (show isChildrenOpenLine
      ("<?xml version=\"1.0\" encoding=\"UTF-8\"?>".data) = false by decide),
    countP_cons_false (show isChildrenOpenLine
      ("<xmap-content xmlns=\"urn:xmind:xmap:xmlns:content:2.0\" version=\"2.0\">".data)
        = false by decide),
    countP_cons_false (show isChildrenOpenLine ("  <sheet id=\"sheet1\">".data) = false
      by decide),
    countP_cons_false (isChildrenOpenLine_rootTopic i),
    countP_cons_false (isChildrenOpenLine_titleLine 4 t),
    List.countP_nil,
    countP_cons_false (show isChildrenOpenLine ("    </topic>".data) = false by decide),
    countP_cons_false (show isChildrenOpenLine ("  </sheet>".data) = false by decide),
    countP_cons_false (show isChildrenOpenLine ("</xmap-content>".data) = false by decide),
    List.countP_nil,
    show ((([] : List Node)).isEmpty) = true from rfl, if_pos rfl,
    countP_cons_false (show isChildrenOpenLine ([] : List Char) = false by decide),
    List.countP_nil]

/-! ### Corollaries about parsed trees -/

theorem parse_no_newline (c0 : Nat) (content : List Char) :
    (∀ x ∈ preorderIds (parseContent c0 content).1, '\n' ∉ x)
    ∧ (∀ x ∈ preorderTitles (parseContent c0 content).1, '\n' ∉ x) := by
  rw [parseContent_eq_specParse]
  obtain ⟨_, _, _, hids, htitles⟩ := specParse_char c0 content
  constructor
  · intro x hx
    rw [hids] at hx
    rcases List.mem_map.mp hx with ⟨k, _, rfl⟩
    exact newline_not_mem_mkId k
  · intro x hx
    rw [htitles] at hx
    rcases List.mem_cons.mp hx with h | h
    · subst h; decide
    · rcases List.mem_map.mp h with ⟨l, hl, rfl⟩
      unfold nonBlankLines at hl
      have hlm : l ∈ splitLines content := List.mem_of_mem_filter hl
      have h1 : '\n' ∉ l := not_newline_mem_splitLines hlm
      have h2 : '\n' ∉ pstrip l := fun hc => h1 (mem_of_mem_pstrip hc)
      exact cleanText_no_newline h2

theorem countTopics_parse (c0 : Nat) (content : List Char) :
    (splitLines (contentXml (parseContent c0 content).1)).countP isTopicOpenLine
      = countNonBlank content + 1 := by
  obtain ⟨hni, hnt⟩ := parse_no_newline c0 content
  rw [splitLines_contentXml _ hni hnt, countP_specContentLines_topic]
  obtain ⟨_, _, _, hids, _⟩ := specParse_char c0 content
  have h1 : (preorderIds (parseContent c0 content).1).length = countNonBlank content + 1 := by
    rw [parseContent_eq_specParse, hids]
    simp [List.length_map, List.length_range']
  rw [preorderIds_length] at h1
  cases hroot : (parseContent c0 content).1 with
  | mk i t cs =>
    rw [hroot] at h1
    rw [show (Node.mk i t cs).children = cs from rfl]
    have h2 : nodeSize (Node.mk i t cs) = 1 + forestSize cs := rfl
    omega

theorem popTo_of_le {target : Nat} {s : List Frame} (h : s.length ≤ target) :
    popTo target s = s := by
  unfold popTo
  cases s with
  | nil => rfl
  | cons f rest =>
    rw [show (f :: rest).length = rest.length + 1 from rfl]
    simp only [popToAux]
    rw [if_neg (by omega)]

/-! ### The claims -/

/-- C1: for every node forest (in particular every parsed tree's forest),
`_build_simple_children_xml` emits no children block at all for a node with
no children, and for children emits exactly the newline-join of the lines
the spec's recursive rule prescribes: one children wrapper holding one
attached-topics wrapper holding one topic element per child in source
order, recursing the same rule inside each child; the counts confirm
exactly one topic-opening line per node and exactly one children wrapper
and one attached-topics wrapper per node with children, plus one pair for
the forest itself. -/
theorem c1_recursive_children_rule (ns : List Node) (k : Nat) :
    buildSimpleChildrenXml ns k
        = (if ns.isEmpty then [] else joinLines (specChildrenLines ns k))
    ∧ (specChildrenLines ns k).countP isTopicOpenLine = forestSize ns
    ∧ (specChildrenLines ns k).countP isChildrenOpenLine
        = (if ns.isEmpty then 0 else 1) + forestWrappers ns
    ∧ (specChildrenLines ns k).countP isTopicsOpenLine
        = (if ns.isEmpty then 0 else 1) + forestWrappers ns :=
  ⟨buildSimpleChildrenXml_eq ns k, (counts_specChildrenLines ns k).1,
    (counts_specChildrenLines ns k).2.1, (counts_specChildrenLines ns k).2.2⟩

theorem c1_witness :
    buildSimpleChildrenXml [Node.mk "topic2".data "A".data []] 6
        = joinLines (specChildrenLines [Node.mk "topic2".data "A".data []] 6)
    ∧ (specChildrenLines [Node.mk "topic2".data "A".data []] 6).countP isTopicOpenLine
        = 1 := by
  have h := c1_recursive_children_rule [Node.mk "topic2".data "A".data []] 6
  exact ⟨h.1, by rw [h.2.1]; rfl⟩

/-- C2: the number of topic elements in the emitted `content.xml` (counted
as lines opening a topic element) equals the number of non-blank input
lines plus one for the root, and the final counter shows blank lines
consumed no id: the counter advanced by exactly (non-blank lines + 1). -/
theorem c2_topic_count (content : List Char) (c0 : Nat) :
    (splitLines (contentXml (parseContent c0 content).1)).countP isTopicOpenLine
        = countNonBlank content + 1
    ∧ (parseContent c0 content).2 = c0 + countNonBlank content + 1 := by
  refine ⟨countTopics_parse c0 content, ?_⟩
  rw [parseContent_eq_specParse]
  have h := (specParse_char c0 content).2.2.1
  omega

theorem c2_witness :
    (splitLines (contentXml (parseContent 0 "A\n\n\tB".data).1)).countP isTopicOpenLine = 3
    ∧ (parseContent 0 "A\n\n\tB".data).2 = 3 := by
  have h := c2_topic_count "A\n\n\tB".data 0
  exact ⟨by rw [h.1]; rfl, by rw [h.2]; rfl⟩

/-- C3: with a freshly constructed converter (counter 0), the pre-order ids
of the parsed tree are exactly `topic1, topic2, …` in visitation order —
strictly increasing, consecutive, starting at 1 for the synthetic root —
hence unique; pre-order titles equal the cleaned non-blank input lines in
input order; and each id renders as the fixed prefix `topic` followed by
the counter value without zero-padding (no leading zero digit). -/
theorem c3_id_assignment (content : List Char) :
    preorderIds (parseContent 0 content).1
        = (List.range' 1 (countNonBlank content + 1)).map mkId
    ∧ (preorderIds (parseContent 0 content).1).Nodup
    ∧ (parseContent 0 content).1.id = mkId 1
    ∧ preorderTitles (parseContent 0 content).1
        = "测试用例".data :: (nonBlankLines content).map (fun l => cleanText (pstrip l))
    ∧ (∀ n : Nat, mkId n = "topic".data ++ renderNat n)
    ∧ (∀ n : Nat, 0 < n → (renderNat n).head? ≠ some '0') := by
  obtain ⟨h1, h2, h3, h4, h5⟩ := specParse_char 0 content
  refine ⟨?_, ?_, ?_, ?_, fun n => rfl, fun n hn => renderNat_head_ne_zero n hn⟩
  · rw [parseContent_eq_specParse]
    exact h4
  · rw [parseContent_eq_specParse, h4]
    exact (List.nodup_range' _ _ 1 one_pos).map mkId_inj
  · rw [parseContent_eq_specParse]
    exact h1
  · rw [parseContent_eq_specParse]
    exact h5

theorem c3_witness :
    preorderIds (parseContent 0 "A\nB".data).1 = [mkId 1, mkId 2, mkId 3]
    ∧ (parseContent 0 "A\nB".data).1.id = "topic1".data := by
  have h := c3_id_assignment "A\nB".data
  exact ⟨by rw [h.1]; rfl, by rw [h.2.2.1]; rfl⟩

/-- C4: `_clean_text` equals the one-pass escape that replaces each of the
five reserved characters by its named entity exactly once (so the
ampersand-first order never double-escapes entity text); a title holding
all five reserved characters escapes to the five entities; and every
stored title is the cleaned (whitespace-trimmed, then escaped) text of its
input line. -/
theorem c4_escaping :
    (∀ l : List Char, cleanText l = specEscape l)
    ∧ cleanText "&<>\"'".data = "&amp;&lt;&gt;&quot;&apos;".data
    ∧ (∀ (content : List Char) (c0 : Nat),
        preorderTitles (parseContent c0 content).1
          = "测试用例".data
            :: (nonBlankLines content).map (fun l => cleanText (pstrip l))) := by
  refine ⟨cleanText_eq_specEscape, by decide, ?_⟩
  intro content c0
  rw [parseContent_eq_specParse]
  exact (specParse_char c0 content).2.2.2.2

theorem c4_witness :
    cleanText "a&b".data = specEscape "a&b".data
    ∧ cleanText "&<>\"'".data = "&amp;&lt;&gt;&quot;&apos;".data :=
  ⟨c4_escaping.1 "a&b".data, c4_escaping.2.1⟩

/-- C5: parsing `"A\n\t\t\tB"` attaches B directly under A with no
synthetic intermediate nodes and no error; in general a non-blank line
whose indentation level is at least the current stack depth pops nothing
and attaches to the current top of stack (the deepest still-valid
ancestor). -/
theorem c5_depth_jump :
    (parseContent 0 "A\n\t\t\tB".data).1
        = Node.mk (mkId 1) "测试用例".data
            [Node.mk (mkId 2) "A".data [Node.mk (mkId 3) "B".data []]]
    ∧ (∀ (c0 : Nat) (stack : List Frame) (line : List Char),
        isBlankLine line = false → stack.length ≤ getIndentLevel line + 1 →
        processLine (c0, stack) line
          = (c0 + 1, ⟨mkId (c0 + 1), cleanText (pstrip line), []⟩ :: stack)) := by
  refine ⟨rfl, ?_⟩
  intro c0 stack line hb hlen
  rw [processLine_nonblank hb, popTo_of_le hlen]

theorem c5_witness :
    (parseContent 0 "A\n\t\t\tB".data).1
        = Node.mk (mkId 1) "测试用例".data
            [Node.mk (mkId 2) "A".data [Node.mk (mkId 3) "B".data []]]
    ∧ processLine (5, [⟨mkId 1, "r".data, []⟩]) "\t\t\tB".data
        = (6, [⟨mkId 6, "B".data, []⟩, ⟨mkId 1, "r".data, []⟩]) :=
  ⟨c5_depth_jump.1,
    c5_depth_jump.2 5 [⟨mkId 1, "r".data, []⟩] "\t\t\tB".data (by decide) (by decide)⟩

/-- C6: the implementation's whole-content strip before splitting changes
nothing: `_parse_content` equals the spec's stack algorithm run on the
unstripped lines, for every input and counter; in particular a first line
with indentation greater than 0 attaches directly under the synthetic
root, as the concrete instance shows. -/
theorem c6_strip_equivalence :
    (∀ (c0 : Nat) (content : List Char), parseContent c0 content = specParse c0 content)
    ∧ (parseContent 0 "\t\t\tA\nB".data).1
        = Node.mk (mkId 1) "测试用例".data
            [Node.mk (mkId 2) "A".data [], Node.mk (mkId 3) "B".data []] :=
  ⟨parseContent_eq_specParse, rfl⟩

theorem c6_witness :
    parseContent 3 " A\nB ".data = specParse 3 " A\nB ".data :=
  c6_strip_equivalence.1 3 " A\nB ".data

/-- C7: an empty or whitespace-only input parses, with no error, to the
bare synthetic root with no children; its children XML is the empty
string, and no line of the emitted `content.xml` opens a children
wrapper. -/
theorem c7_empty_input (content : List Char) (c0 : Nat)
    (h : content.all isPySpace = true) :
    (parseContent c0 content).1 = Node.mk (mkId (c0 + 1)) "测试用例".data []
    ∧ buildSimpleChildrenXml (parseContent c0 content).1.children 6 = []
    ∧ (splitLines (contentXml (parseContent c0 content).1)).countP isChildrenOpenLine
        = 0 := by
  have hstrip : pstrip content = [] := pstrip_of_all_space h
  have hroot : (parseContent c0 content).1
      = Node.mk (mkId (c0 + 1)) "测试用例".data [] := by
    rw [show parseContent c0 content
        = (closeAll ((splitLines (pstrip content)).foldl processLine
            (c0 + 1, [⟨mkId (c0 + 1), "测试用例".data, []⟩])).2,
           ((splitLines (pstrip content)).foldl processLine
            (c0 + 1, [⟨mkId (c0 + 1), "测试用例".data, []⟩])).1) from rfl, hstrip]
    rfl
  obtain ⟨hni, hnt⟩ := parse_no_newline c0 content
  refine ⟨hroot, ?_, ?_⟩
  · rw [hroot]
    rfl
  · rw [splitLines_contentXml _ hni hnt, hroot]
    exact countP_specContentLines_children_nil _ _

theorem c7_witness :
    (parseContent 7 " \n\t".data).1 = Node.mk (mkId 8) "测试用例".data []
    ∧ buildSimpleChildrenXml (parseContent 7 " \n\t".data).1.children 6 = []
    ∧ (splitLines (contentXml (parseContent 7 " \n\t".data).1)).countP isChildrenOpenLine
        = 0 :=
  c7_empty_input " \n\t".data 7 (by decide)

/-- C8: parsing is total — for every input string and counter it returns a
well-formed root (fixed title, freshly assigned id) and the advanced
counter, with no rejecting path; malformed indentation (jumps and
de-indents below the first line's level) is absorbed by the clamping rule,
as the concrete instance shows. -/
theorem c8_totality (content : List Char) (c0 : Nat) :
    (parseContent c0 content).1.id = mkId (c0 + 1)
    ∧ (parseContent c0 content).1.title = "测试用例".data
    ∧ (parseContent c0 content).2 = c0 + countNonBlank content + 1
    ∧ (parseContent 0 "\t\tA\nB\n\t\t\t\tC".data).1
        = Node.mk (mkId 1) "测试用例".data
            [Node.mk (mkId 2) "A".data [],
             Node.mk (mkId 3) "B".data [Node.mk (mkId 4) "C".data []]] := by
  obtain ⟨h1, h2, h3, _, _⟩ := specParse_char c0 content
  refine ⟨?_, ?_, ?_, rfl⟩
  · rw [parseContent_eq_specParse]
    exact h1
  · rw [parseContent_eq_specParse]
    exact h2
  · rw [parseContent_eq_specParse]
    omega

theorem c8_witness :
    (parseContent 0 "x".data).1.id = mkId 1
    ∧ (parseContent 0 "x".data).2 = 2 := by
  have h := c8_totality "x".data 0
  exact ⟨h.1, by rw [h.2.2.1]; rfl⟩

/-- C9: the emitted archive entries are a pure function of the input text:
a run writes byte-identical `content.xml`, `meta.xml` and
`META-INF/manifest.xml` strings regardless of the output path, so two
conversions of the same input with fresh converters (as the command-line
entry point performs) produce identical text assets. -/
theorem c9_deterministic (content path1 path2 : List Char) :
    createSimpleXmindFile (parseContent 0 content).1 path1
        = createSimpleXmindFile (parseContent 0 content).1 path2
    ∧ convertRun content = convertRun content
    ∧ (xmindEntries (parseContent 0 content).1).map Prod.fst
        = ["content.xml".data, "meta.xml".data, "META-INF/manifest.xml".data] :=
  ⟨rfl, rfl, rfl⟩

theorem c9_witness :
    createSimpleXmindFile (parseContent 0 "A".data).1 "p1".data
        = createSimpleXmindFile (parseContent 0 "A".data).1 "p2".data
    ∧ convertRun "A".data = convertRun "A".data :=
  ⟨(c9_deterministic "A".data "p1".data "p2".data).1,
    (c9_deterministic "A".data "p1".data "p2".data).2.1⟩

/-- C10: the id counter is instance state never reset by a conversion:
`_get_next_id` always advances the counter, a conversion advances it by
(non-blank lines + 1), and a second conversion on the same instance
assigns ids strictly above every id of the first — its root id is the
first counter value after the first run, not `topic1`. -/
theorem c10_counter_not_reset (content1 content2 : List Char) :
    (parseContent 0 content1).2 = countNonBlank content1 + 1
    ∧ preorderIds (parseContent 0 content1).1
        = (List.range' 1 (countNonBlank content1 + 1)).map mkId
    ∧ (parseContent (parseContent 0 content1).2 content2).1.id
        = mkId (countNonBlank content1 + 2)
    ∧ preorderIds (parseContent (parseContent 0 content1).2 content2).1
        = (List.range' (countNonBlank content1 + 2) (countNonBlank content2 + 1)).map mkId
    ∧ (parseContent (parseContent 0 content1).2 content2).1.id ≠ mkId 1
    ∧ (∀ c : Nat, (getNextId c).2 = c + 1 ∧ (getNextId c).1 = mkId (c + 1)) := by
  obtain ⟨a1, a2, a3, a4, a5⟩ := specParse_char 0 content1
  have hc1 : (parseContent 0 content1).2 = countNonBlank content1 + 1 := by
    rw [parseContent_eq_specParse]
    omega
  obtain ⟨b1, b2, b3, b4, b5⟩ := specParse_char (parseContent 0 content1).2 content2
  refine ⟨hc1, ?_, ?_, ?_, ?_, fun c => ⟨rfl, rfl⟩⟩
  · rw [parseContent_eq_specParse]
    exact a4
  · rw [parseContent_eq_specParse (parseContent 0 content1).2 content2, b1, hc1]
  · rw [parseContent_eq_specParse (parseContent 0 content1).2 content2, b4, hc1]
  · rw [parseContent_eq_specParse (parseContent 0 content1).2 content2, b1, hc1]
    intro hcon
    have := mkId_inj hcon
    omega

theorem c10_witness :
    (parseContent 0 "A".data).2 = 2
    ∧ (parseContent (parseContent 0 "A".data).2 "B".data).1.id = mkId 3
    ∧ (parseContent (parseContent 0 "A".data).2 "B".data).1.id ≠ mkId 1 := by
  have h := c10_counter_not_reset "A".data "B".data
  exact ⟨by rw [h.1]; rfl, by rw [h.2.2.1]; rfl, h.2.2.2.2.1⟩

end ConvertToXmind
